import Mathlib

/-!
Verification of the PNG icon generator (`icons/generate_icons.py`).

The development embeds the program shallowly:

* the PNG encoder `png_bytes` (with its helper `chunk`, the CRC-32 of zlib,
  and the raw scanline construction) works on lists of natural-number bytes;
  the deflate compressor `zlib.compress(·, 9)` is an external library routine
  and is taken as an abstract parameter `compress`;
* the rasterizer `draw_icon` is embedded over the real numbers (the Python
  source computes with IEEE doubles; the real-number reading is the exact
  semantics of its formulas), with Python's banker's rounding `round`
  modelled by `pyRound`;
* the driver `main` is modelled as a fold over an abstract file system,
  with a failure predicate standing for the possible I/O errors.

Fallible operations of the source (sequence indexing, `bytes(...)` range
checks, `struct.pack('>I', ...)` range checks) are modelled with `Option`.
-/

/-! ## Bytes, big-endian packing, CRC-32 -/

/-- A pixel of the program: an `(r, g, b, a)` tuple of Python integers. -/
def Pix : Type := ℤ × ℤ × ℤ × ℤ

instance : DecidableEq Pix := by
  unfold Pix
  infer_instance

instance : Inhabited Pix := ⟨((0 : ℤ), (0 : ℤ), (0 : ℤ), (0 : ℤ))⟩

/-- `struct.pack('>I', n)`: the four big-endian bytes of `n < 2^32`. -/
def be32 (n : ℕ) : List ℕ :=
  [n / 2 ^ 24 % 256, n / 2 ^ 16 % 256, n / 2 ^ 8 % 256, n % 256]

/-- One bit step of the zlib CRC-32: shift right, conditionally xor the
reflected IEEE polynomial `0xEDB88320`. -/
def crcBitStep (c : ℕ) : ℕ :=
  if c % 2 = 1 then Nat.xor (c / 2) 0xEDB88320 else c / 2

/-- Iterate `crcBitStep` `k` times. -/
def crcBits : ℕ → ℕ → ℕ
  | c, 0 => c
  | c, k + 1 => crcBits (crcBitStep c) k

/-- CRC-32 running state over a byte list. -/
def crc32Aux : ℕ → List ℕ → ℕ
  | c, [] => c
  | c, b :: rest => crc32Aux (crcBits (Nat.xor c b) 8) rest

/-- `zlib.crc32(data)`: the CRC-32 (IEEE polynomial, reflected form,
initial value and final xor `0xFFFFFFFF`). -/
def crc32 (l : List ℕ) : ℕ :=
  Nat.xor (crc32Aux 0xFFFFFFFF l) 0xFFFFFFFF

/-! ## PNG chunk framing (source lines 17-19) -/

/-- The PNG signature `b'\x89PNG\r\n\x1a\n'`. -/
def pngSignature : List ℕ := [0x89, 0x50, 0x4E, 0x47, 0x0D, 0x0A, 0x1A, 0x0A]

/-- ASCII bytes of `b'IHDR'`. -/
def ihdrTag : List ℕ := [73, 72, 68, 82]

/-- ASCII bytes of `b'IDAT'`. -/
def idatTag : List ℕ := [73, 68, 65, 84]

/-- ASCII bytes of `b'IEND'`. -/
def iendTag : List ℕ := [73, 69, 78, 68]

/-- `chunk(tag, data)` of the source: length-prefixed, CRC-suffixed framing.
`struct.pack('>I', len(data))` raises for `len(data) ≥ 2^32`, hence the
guard; `zlib.crc32(c) & 0xFFFFFFFF` is the masked CRC. -/
def chunk (tag data : List ℕ) : Option (List ℕ) :=
  if data.length < 2 ^ 32 then
    some (be32 data.length ++ (tag ++ data) ++ be32 (crc32 (tag ++ data) % 2 ^ 32))
  else none

/-- `struct.pack('>IIBBBBB', width, height, 8, 6, 0, 0, 0)`: the IHDR
payload; the pack raises when a `>I` field does not fit 32 bits. -/
def packIHDR (width height : ℕ) : Option (List ℕ) :=
  if width < 2 ^ 32 ∧ height < 2 ^ 32 then
    some (be32 width ++ be32 height ++ [8, 6, 0, 0, 0])
  else none

/-! ## Raw scanline construction (source lines 23-28) -/

/-- `bytes([r, g, b, a])`: four bytes, raising unless every channel is in
`range(0, 256)`. -/
def pixelBytes (p : Pix) : Option (List ℕ) :=
  if 0 ≤ p.1 ∧ p.1 < 256 ∧ 0 ≤ p.2.1 ∧ p.2.1 < 256 ∧
      0 ≤ p.2.2.1 ∧ p.2.2.1 < 256 ∧ 0 ≤ p.2.2.2 ∧ p.2.2.2 < 256 then
    some [p.1.toNat, p.2.1.toNat, p.2.2.1.toNat, p.2.2.2.toNat]
  else none

/-- The inner `for x in range(width)` loop of the raw-data construction:
starting at buffer index `base`, emit the bytes of `count` consecutive
pixels, failing on an out-of-range index or channel (a `none` propagates
like the corresponding Python exception). -/
def encodePixels (buf : List Pix) : ℕ → ℕ → Option (List ℕ)
  | _, 0 => some []
  | base, count + 1 =>
    (buf[base]?).bind fun p =>
      (pixelBytes p).bind fun pb =>
        (encodePixels buf (base + 1) count).map fun rest => pb ++ rest

/-- The outer `for y in range(height)` loop: each scanline is the filter
byte `0` followed by the row's pixel bytes. -/
def encodeRows (buf : List Pix) (width : ℕ) : ℕ → ℕ → Option (List ℕ)
  | _, 0 => some []
  | y, k + 1 =>
    (encodePixels buf (y * width) width).bind fun row =>
      (encodeRows buf width (y + 1) k).map fun rest => (0 :: row) ++ rest

/-- The whole `raw` accumulation of `png_bytes`. -/
def buildRaw (width height : ℕ) (buf : List Pix) : Option (List ℕ) :=
  encodeRows buf width 0 height

/-- `png_bytes(width, height, pixels)` of the source, with the deflate
compressor abstracted as `compress` (the source calls
`zlib.compress(raw, 9)`). -/
def png_bytes (width height : ℕ) (pixels : List Pix)
    (compress : List ℕ → List ℕ) : Option (List ℕ) :=
  (packIHDR width height).bind fun ihdrData =>
    (chunk ihdrTag ihdrData).bind fun ihdr =>
      (buildRaw width height pixels).bind fun raw =>
        (chunk idatTag (compress raw)).bind fun idat =>
          (chunk iendTag []).map fun iend => pngSignature ++ ihdr ++ idat ++ iend

/-! ## Specification-side descriptions of the encoder output

These follow the wording of the specification ("each chunk is framed as the
big-endian 4-byte length of its payload, its 4-byte ASCII type, the payload,
and the 4-byte CRC32 of type+payload"; "raw scanline data consisting, for
each of the h rows, of a filter byte 0 followed by the 4 channel bytes of
each of the w pixels of that row"). -/

/-- The four channel bytes of a pixel, as the spec describes them. -/
def specPixelBytes (p : Pix) : List ℕ :=
  [p.1.toNat, p.2.1.toNat, p.2.2.1.toNat, p.2.2.2.toNat]

/-- The pixel bytes of `count` pixels starting at index `base`. -/
def specRow (buf : List Pix) : ℕ → ℕ → List ℕ
  | _, 0 => []
  | base, count + 1 =>
    specPixelBytes (buf.getD base default) ++ specRow buf (base + 1) count

/-- The scanlines of rows `y, y+1, …` (`k` of them): filter byte `0`
followed by the row's pixel bytes. -/
def specRows (buf : List Pix) (width : ℕ) : ℕ → ℕ → List ℕ
  | _, 0 => []
  | y, k + 1 => (0 :: specRow buf (y * width) width) ++ specRows buf width (y + 1) k

/-- The raw scanline data of the whole image, as the spec describes it. -/
def specRaw (width height : ℕ) (buf : List Pix) : List ℕ :=
  specRows buf width 0 height

/-- A well-formed chunk as the spec describes it: big-endian length of the
payload, the type tag, the payload, the CRC-32 of type+payload. -/
def specChunk (tag data : List ℕ) : List ℕ :=
  be32 data.length ++ tag ++ data ++ be32 (crc32 (tag ++ data))

/-- The list of `count` buffer entries starting at index `base` (used to
relate decoded pixels back to the buffer). -/
def pixList (buf : List Pix) : ℕ → ℕ → List Pix
  | _, 0 => []
  | base, count + 1 => buf.getD base default :: pixList buf (base + 1) count

/-- Every channel of the pixel is an integer in `[0, 255]`. -/
def PixInRange (p : Pix) : Prop :=
  0 ≤ p.1 ∧ p.1 ≤ 255 ∧ 0 ≤ p.2.1 ∧ p.2.1 ≤ 255 ∧
    0 ≤ p.2.2.1 ∧ p.2.2.1 ≤ 255 ∧ 0 ≤ p.2.2.2 ∧ p.2.2.2 ≤ 255

instance (p : Pix) : Decidable (PixInRange p) := by
  unfold PixInRange
  infer_instance

/-! ## A standard PNG decoder

Modelled from the spec: "decoding the encoder's output with a standard PNG
decoder (i.e. parsing the chunks, zlib-decompressing the IDAT payload,
stripping the per-row filter byte 0 and regrouping 4 bytes per pixel)".
There is no decoder in the repository; this one follows the spec's
parenthetical description, checking the signature, the chunk framing
(length prefix and CRC), the fixed IHDR fields, the chunk order, the filter
bytes, and that no bytes are left over. -/

/-- Read a big-endian 32-bit integer off the front of a byte stream. -/
def readBE32 : List ℕ → Option (ℕ × List ℕ)
  | a :: b :: c :: d :: rest => some (((a * 256 + b) * 256 + c) * 256 + d, rest)
  | _ => none

/-- Parse one chunk: length, 4-byte type, payload, CRC; the CRC must match
the CRC-32 of type+payload. -/
def readChunk (l : List ℕ) : Option ((List ℕ × List ℕ) × List ℕ) :=
  (readBE32 l).bind fun lr =>
    if 4 ≤ lr.2.length ∧ lr.1 ≤ lr.2.length - 4 then
      (readBE32 ((lr.2.drop 4).drop lr.1)).bind fun cr =>
        if cr.1 = crc32 (lr.2.take 4 ++ (lr.2.drop 4).take lr.1) then
          some ((lr.2.take 4, (lr.2.drop 4).take lr.1), cr.2)
        else none
    else none

/-- Regroup `count` pixels of 4 bytes each off the front of a stream. -/
def readPixels : ℕ → List ℕ → Option (List Pix × List ℕ)
  | 0, l => some ([], l)
  | count + 1, b0 :: b1 :: b2 :: b3 :: rest =>
    (readPixels count rest).map fun pr =>
      (((b0 : ℤ), (b1 : ℤ), (b2 : ℤ), (b3 : ℤ)) :: pr.1, pr.2)
  | _ + 1, _ => none

/-- Strip the per-row filter byte (which must be 0) and regroup the row's
pixels, over `k` rows; all bytes must be consumed. -/
def readRows (width : ℕ) : ℕ → List ℕ → Option (List Pix)
  | 0, l => if l = [] then some [] else none
  | k + 1, 0 :: rest =>
    (readPixels width rest).bind fun pr =>
      (readRows width k pr.2).map fun more => pr.1 ++ more
  | _ + 1, _ => none

/-- Parse the 13-byte IHDR payload, insisting on bit depth 8, color type 6,
compression 0, filter 0, interlace 0. -/
def readIHDR (payload : List ℕ) : Option (ℕ × ℕ) :=
  (readBE32 payload).bind fun wr =>
    (readBE32 wr.2).bind fun hr =>
      if hr.2 = [8, 6, 0, 0, 0] then some (wr.1, hr.1) else none

/-- A standard PNG decoder for the images this program emits: checks the
signature, parses exactly the chunks IHDR, IDAT, IEND in order (with correct
CRCs and an empty IEND), inflates the IDAT payload with the abstract
`decompress`, strips the filter bytes and regroups the pixels. -/
def pngDecode (decompress : List ℕ → Option (List ℕ)) (bytes : List ℕ) :
    Option (ℕ × ℕ × List Pix) :=
  if bytes.take 8 = pngSignature then
    (readChunk (bytes.drop 8)).bind fun c1 =>
      if c1.1.1 = ihdrTag then
        (readIHDR c1.1.2).bind fun wh =>
          (readChunk c1.2).bind fun c2 =>
            if c2.1.1 = idatTag then
              (readChunk c2.2).bind fun c3 =>
                if c3.1.1 = iendTag ∧ c3.1.2 = [] ∧ c3.2 = [] then
                  (decompress c2.1.2).bind fun raw =>
                    (readRows wh.1 wh.2 raw).map fun ps => (wh.1, wh.2, ps)
                else none
            else none
      else none
  else none

/-! ## Python's `round`

Python 3 `round` on a float rounds to the nearest integer, ties to the
nearest even integer (banker's rounding). -/

/-- Python's `round`: nearest integer, ties to even. -/
noncomputable def pyRound (x : ℝ) : ℤ :=
  if x - ⌊x⌋ < 1 / 2 then ⌊x⌋
  else if 1 / 2 < x - ⌊x⌋ then ⌊x⌋ + 1
  else if 2 ∣ ⌊x⌋ then ⌊x⌋ else ⌊x⌋ + 1

/-! ## The rasterizer (source lines 35-98)

All arithmetic is over `ℝ`, the exact semantics of the source's formulas
(the Python source evaluates them in IEEE double precision). -/

/-- `lerp(a, b, t)` of the source. -/
noncomputable def lerp (a b t : ℝ) : ℝ := a + (b - a) * t

/-- The signed distance `dist_corner` of the source (lines 55-57): Euclidean
norm of the clamped excesses past the straight edges, minus the corner
radius `size * 0.22`; `math.hypot(rx, ry)` is `sqrt (rx^2 + ry^2)`. -/
noncomputable def dist_corner (size x y : ℕ) : ℝ :=
  let cx : ℝ := (x : ℝ) + 0.5
  let cy : ℝ := (y : ℝ) + 0.5
  let corner_radius : ℝ := (size : ℝ) * 0.22
  let rx : ℝ := max (max (corner_radius - cx) (cx - ((size : ℝ) - corner_radius))) 0
  let ry : ℝ := max (max (corner_radius - cy) (cy - ((size : ℝ) - corner_radius))) 0
  Real.sqrt (rx ^ 2 + ry ^ 2) - corner_radius

/-- `bg_alpha` of the source (line 59). -/
noncomputable def bg_alpha (size x y : ℕ) : ℝ :=
  max 0 (min 1 (0.5 - dist_corner size x y))

/-- The anti-aliased coverage `aa` of one bar (source lines 80-84), for a
bar starting at height `bt` with width `bw`. -/
noncomputable def barAA (size x y : ℕ) (bt bw : ℝ) : ℝ :=
  let cx : ℝ := (x : ℝ) + 0.5
  let cy : ℝ := (y : ℝ) + 0.5
  let lw : ℝ := (size : ℝ) * 0.13
  let left : ℝ := (size : ℝ) * 0.22
  let feather : ℝ := 0.8
  let dy : ℝ := min (cy - bt) (bt + lw - cy)
  let dx : ℝ := min (cx - left) (left + bw - cx)
  min (max (dy / feather + 0.5) 0) 1 * min (max (dx / feather + 0.5) 0) 1

/-- `fg_alpha` of the source (lines 71-85): starting from `0.0`, fold `max`
over the coverage of the three bars of `bar_y`/`bar_w`. -/
noncomputable def fg_alpha (size x y : ℕ) : ℝ :=
  let lw : ℝ := (size : ℝ) * 0.13
  let gap : ℝ := (size : ℝ) * 0.115
  let w : ℝ := (size : ℝ) * 0.56
  max (max (max 0 (barAA size x y ((size : ℝ) * 0.28) w))
      (barAA size x y ((size : ℝ) * 0.28 + lw + gap) w))
    (barAA size x y ((size : ℝ) * 0.28 + 2 * (lw + gap)) (w * 0.65))

/-- One pixel of `draw_icon` (source lines 87-96): transparent black where
the background alpha is ≤ 0, otherwise the composited and rounded channels. -/
noncomputable def iconPixel (size x y : ℕ) : Pix :=
  if bg_alpha size x y ≤ 0 then ((0 : ℤ), 0, 0, 0)
  else
    (pyRound (lerp 26 255 (fg_alpha size x y)),
      pyRound (lerp 115 255 (fg_alpha size x y)),
      pyRound (lerp 232 255 (fg_alpha size x y)),
      pyRound (bg_alpha size x y * 255))

/-- `draw_icon(size)` of the source: the row-major pixel list produced by
the nested `for y … for x …` loops. -/
noncomputable def draw_icon (size : ℕ) : List Pix :=
  (List.range size).flatMap (fun y => (List.range size).map (fun x => iconPixel size x y))

/-! ## Specification-side descriptions of the rasterizer

These follow the claims' wording and are compared with the source-side
definitions above. -/

/-- `clamp(v, lo, hi)`. -/
noncomputable def clamp (v lo hi : ℝ) : ℝ := min hi (max lo v)

/-- The Euclidean norm of `(a, b)`. -/
noncomputable def hypot (a b : ℝ) : ℝ := Real.sqrt (a ^ 2 + b ^ 2)

/-- The background alpha as the spec words it: with `R = 0.22·S`,
`rx = max(R − cx, cx − (S − R), 0)` and `ry` likewise, the alpha is
`clamp(0.5 − d, 0, 1)` for `d = hypot(rx, ry) − R`. -/
noncomputable def specBgAlpha (size x y : ℕ) : ℝ :=
  let S : ℝ := (size : ℝ)
  let cx : ℝ := (x : ℝ) + 0.5
  let cy : ℝ := (y : ℝ) + 0.5
  let R : ℝ := 0.22 * S
  let rx : ℝ := max (max (R - cx) (cx - (S - R))) 0
  let ry : ℝ := max (max (R - cy) (cy - (S - R))) 0
  clamp (0.5 - (hypot rx ry - R)) 0 1

/-- A soft-edge ramp with feather 0.8 px. -/
noncomputable def specRamp (d : ℝ) : ℝ := clamp (d / 0.8 + 0.5) 0 1

/-- One bar's alpha as the spec words it: the product of the two soft-edge
ramps along the bar's vertical and horizontal extents, for a bar with top
offset `top`, thickness `0.13·S`, and left margin `0.22·S`. -/
noncomputable def specBarAlpha (size x y : ℕ) (top width : ℝ) : ℝ :=
  let S : ℝ := (size : ℝ)
  let cx : ℝ := (x : ℝ) + 0.5
  let cy : ℝ := (y : ℝ) + 0.5
  let thickness : ℝ := 0.13 * S
  let left : ℝ := 0.22 * S
  specRamp (min (cy - top) (top + thickness - cy)) *
    specRamp (min (cx - left) (left + width - cx))

/-- The glyph alpha as the spec words it: the maximum over the three bars,
with top offsets `0.28·S`, `0.28·S + (0.13 + 0.115)·S`,
`0.28·S + 2·(0.13 + 0.115)·S`, widths `0.56·S`, `0.56·S`, `0.65 × 0.56·S`. -/
noncomputable def specGlyphAlpha (size x y : ℕ) : ℝ :=
  let S : ℝ := (size : ℝ)
  max (specBarAlpha size x y (0.28 * S) (0.56 * S))
    (max (specBarAlpha size x y (0.28 * S + (0.13 + 0.115) * S) (0.56 * S))
      (specBarAlpha size x y (0.28 * S + 2 * (0.13 + 0.115) * S) (0.65 * (0.56 * S))))

/-- The top offset of bar `i` (`i < 3`), as the spec lists them. -/
noncomputable def specBarTop (size i : ℕ) : ℝ :=
  if i = 0 then 0.28 * (size : ℝ)
  else if i = 1 then 0.28 * (size : ℝ) + (0.13 + 0.115) * (size : ℝ)
  else 0.28 * (size : ℝ) + 2 * (0.13 + 0.115) * (size : ℝ)

/-- The width of bar `i` (`i < 3`), as the spec lists them. -/
noncomputable def specBarWidth (size i : ℕ) : ℝ :=
  if i = 2 then 0.65 * (0.56 * (size : ℝ)) else 0.56 * (size : ℝ)

/-- The pixel's center lies inside the rectangle of one of the three glyph
bars (bar `i`: horizontal extent `[0.22·S, 0.22·S + wᵢ]`, vertical extent
`[topᵢ, topᵢ + 0.13·S]`). -/
def CenterCovered (size x y : ℕ) : Prop :=
  ∃ i, i < 3 ∧
    specBarTop size i ≤ (y : ℝ) + 0.5 ∧
    (y : ℝ) + 0.5 ≤ specBarTop size i + 0.13 * (size : ℝ) ∧
    0.22 * (size : ℝ) ≤ (x : ℝ) + 0.5 ∧
    (x : ℝ) + 0.5 ≤ 0.22 * (size : ℝ) + specBarWidth size i

/-- The pixel as the spec describes compositing: transparent black when the
background alpha is ≤ 0; otherwise each color channel is the rounded linear
interpolation from background color (26, 115, 232) to foreground color
(255, 255, 255) by the glyph alpha, and the alpha channel is the rounded
`background alpha × 255`. -/
noncomputable def specPix (size x y : ℕ) : Pix :=
  if specBgAlpha size x y ≤ 0 then ((0 : ℤ), 0, 0, 0)
  else
    (pyRound (lerp 26 255 (specGlyphAlpha size x y)),
      pyRound (lerp 115 255 (specGlyphAlpha size x y)),
      pyRound (lerp 232 255 (specGlyphAlpha size x y)),
      pyRound (specBgAlpha size x y * 255))

/-! ## The driver (source lines 101-113)

`main` iterates over the fixed size list, rasterizes, encodes, and writes
`icon<size>.png` into the script's directory. The file system is an
abstract map from paths to contents; `fails p = true` models an I/O error
when writing path `p` (the write then raises and the loop aborts). -/

/-- The fixed size list of the driver. -/
def sizes : List ℕ := [16, 32, 48, 128]

/-- An abstract file system: contents by path. -/
def FS : Type := String → Option (List ℕ)

/-- `os.path.join(script_dir, f'icon{s}.png')`. -/
def iconFile (dir : String) (s : ℕ) : String :=
  dir ++ "/icon" ++ toString s ++ ".png"

/-- `open(path, 'wb').write(data)`: overwrite `p` with `data`. -/
def writeFile (fs : FS) (p : String) (data : List ℕ) : FS :=
  fun q => if q = p then some data else fs q

/-- The driver loop: for each size, rasterize, encode, and write; abort on
the first failure (an encoding error would raise, and a failing write
raises), returning the file system reached and the error if any. -/
noncomputable def mainLoop (compress : List ℕ → List ℕ) (fails : String → Bool)
    (dir : String) : List ℕ → FS → FS × Option String
  | [], fs => (fs, none)
  | s :: rest, fs =>
    match png_bytes s s (draw_icon s) compress with
    | none => (fs, some "raster-encode error")
    | some data =>
      if fails (iconFile dir s) then (fs, some (iconFile dir s))
      else mainLoop compress fails dir rest (writeFile fs (iconFile dir s) data)

/-- `main()` of the source, over the abstract file system. -/
noncomputable def main (compress : List ℕ → List ℕ) (fails : String → Bool)
    (dir : String) (fs : FS) : FS × Option String :=
  mainLoop compress fails dir sizes fs

/-! ## Lemmas about `pyRound` -/

lemma pyRound_intCast (n : ℤ) : pyRound (n : ℝ) = n := by
  unfold pyRound
  rw [Int.floor_intCast, sub_self]
  norm_num

lemma le_pyRound (x : ℝ) : ⌊x⌋ ≤ pyRound x := by
  unfold pyRound
  split_ifs <;> omega

lemma pyRound_ge (a : ℤ) (x : ℝ) (h : (a : ℝ) ≤ x) : a ≤ pyRound x :=
  le_trans (Int.le_floor.2 h) (le_pyRound x)

lemma pyRound_le (b : ℤ) (x : ℝ) (h : x ≤ (b : ℝ)) : pyRound x ≤ b := by
  have hfb : ⌊x⌋ ≤ b := by
    have := Int.floor_le_floor h
    rwa [Int.floor_intCast] at this
  have hfx : (⌊x⌋ : ℝ) ≤ x := Int.floor_le x
  unfold pyRound
  split_ifs with h1 h2 h3
  · exact hfb
  · have hx : (⌊x⌋ : ℝ) + 1 / 2 < x := by linarith
    have : (⌊x⌋ : ℝ) < (b : ℝ) := by linarith
    have : ⌊x⌋ < b := by exact_mod_cast this
    omega
  · exact hfb
  · have hx : (⌊x⌋ : ℝ) + 1 / 2 ≤ x := by
      have := not_lt.1 h1
      linarith
    have : (⌊x⌋ : ℝ) < (b : ℝ) := by linarith
    have : ⌊x⌋ < b := by exact_mod_cast this
    omega

lemma pyRound_eq (a : ℤ) (x : ℝ) (h1 : (a : ℝ) ≤ x) (h2 : x < (a : ℝ) + 1 / 2) :
    pyRound x = a := by
  have hfl : ⌊x⌋ = a := by
    rw [Int.floor_eq_iff]
    constructor
    · exact h1
    · linarith
  have hc : x - ((a : ℤ) : ℝ) < 1 / 2 := by
    linarith
  unfold pyRound
  rw [hfl, if_pos hc]

/-! ## The rasterizer matches the specification's formulas -/

lemma max_min01 (v : ℝ) : max 0 (min 1 v) = min 1 (max 0 v) := by
  rcases le_total v 0 with h | h
  · have l1 : min 1 v = v := min_eq_right (h.trans zero_le_one)
    have l2 : max 0 v = 0 := max_eq_left h
    rw [l1, l2]
    simp
  · rcases le_total 1 v with g | g
    · have l1 : min 1 v = 1 := min_eq_left g
      have l2 : max 0 v = v := max_eq_right h
      rw [l1, l2, l1]
      norm_num
    · have l1 : min 1 v = v := min_eq_right g
      have l2 : max 0 v = v := max_eq_right h
      rw [l1, l2, l1]

lemma ramp_comm (v : ℝ) : min (max v 0) 1 = min 1 (max 0 v) := by
  rw [max_comm, min_comm]

/-- The background alpha of the source equals the claim's formula. -/
lemma bg_alpha_eq_spec (size x y : ℕ) : bg_alpha size x y = specBgAlpha size x y := by
  have hR : (size : ℝ) * 0.22 = 0.22 * (size : ℝ) := by ring
  simp only [bg_alpha, dist_corner, specBgAlpha, hypot, clamp, hR]
  exact max_min01 _

lemma barAA_eq_spec (size x y : ℕ) (bt bw : ℝ) :
    barAA size x y bt bw = specBarAlpha size x y bt bw := by
  have h13 : (size : ℝ) * 0.13 = 0.13 * (size : ℝ) := by ring
  have h22 : (size : ℝ) * 0.22 = 0.22 * (size : ℝ) := by ring
  simp only [barAA, specBarAlpha, specRamp, clamp, h13, h22]
  rw [ramp_comm, ramp_comm]

lemma ramp_nonneg (v : ℝ) : 0 ≤ min (max v 0) 1 :=
  le_min (le_max_right v 0) zero_le_one

lemma ramp_le_one (v : ℝ) : min (max v 0) 1 ≤ 1 := min_le_right _ _

lemma barAA_nonneg (size x y : ℕ) (bt bw : ℝ) : 0 ≤ barAA size x y bt bw := by
  simp only [barAA]
  exact mul_nonneg (ramp_nonneg _) (ramp_nonneg _)

lemma barAA_le_one (size x y : ℕ) (bt bw : ℝ) : barAA size x y bt bw ≤ 1 := by
  simp only [barAA]
  calc min (max _ 0) 1 * min (max _ 0) 1 ≤ 1 * 1 :=
        mul_le_mul (ramp_le_one _) (ramp_le_one _) (ramp_nonneg _) zero_le_one
    _ = 1 := one_mul 1

/-- The glyph alpha of the source equals the claim's formula. -/
lemma fg_alpha_eq_spec (size x y : ℕ) : fg_alpha size x y = specGlyphAlpha size x y := by
  have e1 : (size : ℝ) * 0.28 = 0.28 * (size : ℝ) := by ring
  have e2 : 0.28 * (size : ℝ) + (size : ℝ) * 0.13 + (size : ℝ) * 0.115 =
      0.28 * (size : ℝ) + (0.13 + 0.115) * (size : ℝ) := by ring
  have e3 : 0.28 * (size : ℝ) + 2 * ((size : ℝ) * 0.13 + (size : ℝ) * 0.115) =
      0.28 * (size : ℝ) + 2 * (0.13 + 0.115) * (size : ℝ) := by ring
  have e4 : (size : ℝ) * 0.56 = 0.56 * (size : ℝ) := by ring
  have e5 : 0.56 * (size : ℝ) * 0.65 = 0.65 * (0.56 * (size : ℝ)) := by ring
  simp only [fg_alpha, specGlyphAlpha]
  rw [max_eq_right (barAA_nonneg size x y ((size : ℝ) * 0.28) ((size : ℝ) * 0.56)),
    max_assoc, e1, e2, e3, e4, e5, barAA_eq_spec, barAA_eq_spec, barAA_eq_spec]

lemma fg_alpha_nonneg (size x y : ℕ) : 0 ≤ fg_alpha size x y := by
  simp only [fg_alpha]
  exact le_trans (le_trans (le_max_left 0 _) (le_max_left _ _)) (le_max_left _ _)

lemma fg_alpha_le_one (size x y : ℕ) : fg_alpha size x y ≤ 1 := by
  simp only [fg_alpha]
  exact max_le (max_le (max_le zero_le_one (barAA_le_one _ _ _ _ _))
    (barAA_le_one _ _ _ _ _)) (barAA_le_one _ _ _ _ _)

lemma bg_alpha_nonneg (size x y : ℕ) : 0 ≤ bg_alpha size x y := le_max_left 0 _

lemma bg_alpha_le_one (size x y : ℕ) : bg_alpha size x y ≤ 1 :=
  max_le zero_le_one (min_le_left 1 _)

/-! ## Pixel range and buffer structure (for C5) -/

lemma lerp_mem (a b t : ℝ) (hab : a ≤ b) (h0 : 0 ≤ t) (h1 : t ≤ 1) :
    a ≤ lerp a b t ∧ lerp a b t ≤ b := by
  unfold lerp
  constructor <;> nlinarith

lemma iconPixel_inRange (size x y : ℕ) : PixInRange (iconPixel size x y) := by
  unfold iconPixel
  split_ifs with h
  · refine ⟨le_refl 0, by norm_num, le_refl 0, by norm_num,
      le_refl 0, by norm_num, le_refl 0, by norm_num⟩
  · have hfg0 := fg_alpha_nonneg size x y
    have hfg1 := fg_alpha_le_one size x y
    have hbg0 := bg_alpha_nonneg size x y
    have hbg1 := bg_alpha_le_one size x y
    have hr := lerp_mem 26 255 (fg_alpha size x y) (by norm_num) hfg0 hfg1
    have hg := lerp_mem 115 255 (fg_alpha size x y) (by norm_num) hfg0 hfg1
    have hb := lerp_mem 232 255 (fg_alpha size x y) (by norm_num) hfg0 hfg1
    have ha0 : (0 : ℝ) ≤ bg_alpha size x y * 255 := by nlinarith
    have ha1 : bg_alpha size x y * 255 ≤ 255 := by nlinarith
    refine ⟨pyRound_ge 0 _ (by push_cast; linarith [hr.1]),
      pyRound_le 255 _ (by push_cast; linarith [hr.2]),
      pyRound_ge 0 _ (by push_cast; linarith [hg.1]),
      pyRound_le 255 _ (by push_cast; linarith [hg.2]),
      pyRound_ge 0 _ (by push_cast; linarith [hb.1]),
      pyRound_le 255 _ (by push_cast; linarith [hb.2]),
      pyRound_ge 0 _ (by push_cast; linarith),
      pyRound_le 255 _ (by push_cast; linarith)⟩

lemma flatMap_range_eq {α : Type} (g : ℕ → ℕ → α) (h w : ℕ) :
    (List.range h).flatMap (fun y => (List.range w).map (g y)) =
    (List.range (h * w)).map (fun i => g (i / w) (i % w)) := by
  induction h with
  | zero => simp
  | succ n ih =>
    rw [List.range_succ, List.flatMap_append, ih, Nat.succ_mul, List.range_add,
      List.map_append]
    congr 1
    simp only [List.flatMap_cons, List.flatMap_nil, List.append_nil, List.map_map]
    apply List.map_congr_left
    intro a ha
    have haw : a < w := List.mem_range.1 ha
    have hw : 0 < w := lt_of_le_of_lt (Nat.zero_le a) haw
    simp only [Function.comp_apply]
    have hdiv : (n * w + a) / w = n := by
      rw [Nat.mul_comm n w, Nat.mul_add_div hw, Nat.div_eq_of_lt haw, Nat.add_zero]
    have hmod : (n * w + a) % w = a := by
      rw [Nat.mul_comm n w, Nat.mul_add_mod, Nat.mod_eq_of_lt haw]
    rw [hdiv, hmod]

lemma draw_icon_eq (size : ℕ) :
    draw_icon size =
      (List.range (size * size)).map (fun i => iconPixel size (i % size) (i / size)) := by
  unfold draw_icon
  rw [flatMap_range_eq (fun y x => iconPixel size x y) size size]

lemma draw_icon_length (size : ℕ) : (draw_icon size).length = size * size := by
  rw [draw_icon_eq, List.length_map, List.length_range]

lemma draw_icon_get (size x y : ℕ) (hx : x < size) (hy : y < size) :
    (draw_icon size)[y * size + x]? = some (iconPixel size x y) := by
  have hpos : 0 < size := lt_of_le_of_lt (Nat.zero_le x) hx
  have hlt : y * size + x < size * size := by
    calc y * size + x < y * size + size := by omega
      _ = (y + 1) * size := by ring
      _ ≤ size * size := Nat.mul_le_mul_right size (by omega)
  have hmod : (y * size + x) % size = x := by
    rw [Nat.mul_comm y size, Nat.mul_add_mod, Nat.mod_eq_of_lt hx]
  have hdiv : (y * size + x) / size = y := by
    rw [Nat.mul_comm y size, Nat.mul_add_div hpos, Nat.div_eq_of_lt hx, Nat.add_zero]
  rw [draw_icon_eq, List.getElem?_map, List.getElem?_range hlt]
  simp only [Option.map_some']
  rw [hmod, hdiv]

lemma draw_icon_mem (size : ℕ) : ∀ p ∈ draw_icon size, PixInRange p := by
  intro p hp
  rw [draw_icon_eq] at hp
  obtain ⟨i, _, rfl⟩ := List.mem_map.1 hp
  exact iconPixel_inRange size (i % size) (i / size)

/-! ## Concrete pixel evaluations (for C7 and C8) -/

lemma bg_alpha_one (size x y : ℕ)
    (h1 : (size : ℝ) * 0.22 - ((x : ℝ) + 0.5) ≤ 0)
    (h2 : (x : ℝ) + 0.5 - ((size : ℝ) - (size : ℝ) * 0.22) ≤ 0)
    (h3 : (size : ℝ) * 0.22 - ((y : ℝ) + 0.5) ≤ 0)
    (h4 : (y : ℝ) + 0.5 - ((size : ℝ) - (size : ℝ) * 0.22) ≤ 0)
    (h5 : (1 : ℝ) ≤ 0.5 + (size : ℝ) * 0.22) :
    bg_alpha size x y = 1 := by
  simp only [bg_alpha, dist_corner]
  have hrx : max (max ((size : ℝ) * 0.22 - ((x : ℝ) + 0.5))
      ((x : ℝ) + 0.5 - ((size : ℝ) - (size : ℝ) * 0.22))) 0 = 0 :=
    max_eq_right (max_le h1 h2)
  have hry : max (max ((size : ℝ) * 0.22 - ((y : ℝ) + 0.5))
      ((y : ℝ) + 0.5 - ((size : ℝ) - (size : ℝ) * 0.22))) 0 = 0 :=
    max_eq_right (max_le h3 h4)
  rw [hrx, hry]
  rw [show ((0 : ℝ) ^ 2 + 0 ^ 2) = 0 by norm_num, Real.sqrt_zero]
  rw [show (0.5 : ℝ) - (0 - (size : ℝ) * 0.22) = 0.5 + (size : ℝ) * 0.22 by ring]
  rw [min_eq_left h5, max_eq_right zero_le_one]

lemma ramp_prod_zero (u v : ℝ) (hu : u ≤ -0.4) :
    min (max (u / 0.8 + 0.5) 0) 1 * min (max (v / 0.8 + 0.5) 0) 1 = 0 := by
  have h8 : (0 : ℝ) < 0.8 := by norm_num
  have hdiv : u / 0.8 ≤ -0.5 := by
    rw [div_le_iff₀ h8]
    linarith
  have hv : u / 0.8 + 0.5 ≤ 0 := by linarith
  rw [max_eq_right hv, min_eq_left zero_le_one, zero_mul]

lemma barAA_zero (size x y : ℕ) (bt bw : ℝ)
    (h : min ((y : ℝ) + 0.5 - bt) (bt + (size : ℝ) * 0.13 - ((y : ℝ) + 0.5)) ≤ -0.4) :
    barAA size x y bt bw = 0 := by
  simp only [barAA]
  exact ramp_prod_zero _ _ h

lemma fg_alpha_zero (size x y : ℕ)
    (h1 : min ((y : ℝ) + 0.5 - (size : ℝ) * 0.28)
      ((size : ℝ) * 0.28 + (size : ℝ) * 0.13 - ((y : ℝ) + 0.5)) ≤ -0.4)
    (h2 : min ((y : ℝ) + 0.5 - ((size : ℝ) * 0.28 + (size : ℝ) * 0.13 + (size : ℝ) * 0.115))
      ((size : ℝ) * 0.28 + (size : ℝ) * 0.13 + (size : ℝ) * 0.115 + (size : ℝ) * 0.13 -
        ((y : ℝ) + 0.5)) ≤ -0.4)
    (h3 : min ((y : ℝ) + 0.5 - ((size : ℝ) * 0.28 + 2 * ((size : ℝ) * 0.13 + (size : ℝ) * 0.115)))
      ((size : ℝ) * 0.28 + 2 * ((size : ℝ) * 0.13 + (size : ℝ) * 0.115) + (size : ℝ) * 0.13 -
        ((y : ℝ) + 0.5)) ≤ -0.4) :
    fg_alpha size x y = 0 := by
  simp only [fg_alpha]
  rw [barAA_zero size x y ((size : ℝ) * 0.28) ((size : ℝ) * 0.56) h1,
    barAA_zero size x y ((size : ℝ) * 0.28 + (size : ℝ) * 0.13 + (size : ℝ) * 0.115)
      ((size : ℝ) * 0.56) h2,
    barAA_zero size x y ((size : ℝ) * 0.28 + 2 * ((size : ℝ) * 0.13 + (size : ℝ) * 0.115))
      ((size : ℝ) * 0.56 * 0.65) h3]
  simp

lemma iconPixel_blue (size x y : ℕ) (hbg : bg_alpha size x y = 1)
    (hfg : fg_alpha size x y = 0) :
    iconPixel size x y = ((26 : ℤ), 115, 232, 255) := by
  unfold iconPixel
  rw [hbg, hfg, if_neg (by norm_num : ¬ (1 : ℝ) ≤ 0), one_mul]
  rw [show lerp 26 255 (0 : ℝ) = 26 by simp [lerp], show lerp 115 255 (0 : ℝ) = 115 by simp [lerp],
    show lerp 232 255 (0 : ℝ) = 232 by simp [lerp]]
  rw [pyRound_eq 26 (26 : ℝ) (by norm_num) (by norm_num),
    pyRound_eq 115 (115 : ℝ) (by norm_num) (by norm_num),
    pyRound_eq 232 (232 : ℝ) (by norm_num) (by norm_num),
    pyRound_eq 255 (255 : ℝ) (by norm_num) (by norm_num)]

lemma iconPixel_opaque (size x y : ℕ) (hbg : bg_alpha size x y = 1) :
    iconPixel size x y =
      (pyRound (lerp 26 255 (fg_alpha size x y)), pyRound (lerp 115 255 (fg_alpha size x y)),
        pyRound (lerp 232 255 (fg_alpha size x y)), 255) := by
  unfold iconPixel
  rw [hbg, if_neg (by norm_num : ¬ (1 : ℝ) ≤ 0), one_mul]
  rw [pyRound_eq 255 (255 : ℝ) (by norm_num) (by norm_num)]

lemma bg_alpha_zero (size x y : ℕ) (h : (0.5 : ℝ) ≤ dist_corner size x y) :
    bg_alpha size x y = 0 := by
  unfold bg_alpha
  exact max_eq_left (le_trans (min_le_right _ _) (by linarith))

lemma iconPixel_transparent (size x y : ℕ) (h : bg_alpha size x y ≤ 0) :
    iconPixel size x y = ((0 : ℤ), 0, 0, 0) := by
  unfold iconPixel
  rw [if_pos h]

lemma sqrt_sq_add_sq_ge (a b c d : ℝ) (hc : 0 ≤ c) (ha : c ≤ a) (hb : c ≤ b)
    (hd : 0 ≤ d) (h2 : d ^ 2 ≤ c ^ 2 + c ^ 2) : d ≤ Real.sqrt (a ^ 2 + b ^ 2) := by
  rw [Real.le_sqrt hd (by positivity)]
  nlinarith

lemma dist_corner_corner128 (x y : ℕ) (hx : x = 0 ∨ x = 127) (hy : y = 0 ∨ y = 127) :
    (0.5 : ℝ) ≤ dist_corner 128 x y := by
  have key : ∀ a b : ℝ, (27.66 : ℝ) ≤ a → (27.66 : ℝ) ≤ b →
      (0.5 : ℝ) + (128 : ℝ) * 0.22 ≤ Real.sqrt (a ^ 2 + b ^ 2) := fun a b ha hb =>
    sqrt_sq_add_sq_ge a b 27.66 (0.5 + (128 : ℝ) * 0.22) (by norm_num) ha hb
      (by norm_num) (by norm_num)
  rcases hx with rfl | rfl <;> rcases hy with rfl | rfl
  · simp only [dist_corner]
    push_cast
    rw [le_sub_iff_add_le]
    apply key
    · exact le_trans (le_trans (by norm_num) (le_max_left _ _)) (le_max_left _ _)
    · exact le_trans (le_trans (by norm_num) (le_max_left _ _)) (le_max_left _ _)
  · simp only [dist_corner]
    push_cast
    rw [le_sub_iff_add_le]
    apply key
    · exact le_trans (le_trans (by norm_num) (le_max_left _ _)) (le_max_left _ _)
    · exact le_trans (le_trans (by norm_num) (le_max_right _ _)) (le_max_left _ _)
  · simp only [dist_corner]
    push_cast
    rw [le_sub_iff_add_le]
    apply key
    · exact le_trans (le_trans (by norm_num) (le_max_right _ _)) (le_max_left _ _)
    · exact le_trans (le_trans (by norm_num) (le_max_left _ _)) (le_max_left _ _)
  · simp only [dist_corner]
    push_cast
    rw [le_sub_iff_add_le]
    apply key
    · exact le_trans (le_trans (by norm_num) (le_max_right _ _)) (le_max_left _ _)
    · exact le_trans (le_trans (by norm_num) (le_max_right _ _)) (le_max_left _ _)

lemma fg_16_8 (x : ℕ) (hx : x = 7 ∨ x = 8) : fg_alpha 16 x 8 = 0.625 := by
  rcases hx with rfl | rfl <;>
  · simp only [fg_alpha, barAA]
    push_cast
    norm_num [min_def, max_def]

lemma fg_32_16 (x : ℕ) (hx : x = 15 ∨ x = 16) : fg_alpha 32 x 16 = 0.125 := by
  rcases hx with rfl | rfl <;>
  · simp only [fg_alpha, barAA]
    push_cast
    norm_num [min_def, max_def]

lemma pyRound_span (x : ℝ) (a b lo hi : ℤ) (h1 : (a : ℝ) ≤ x) (h2 : x ≤ (b : ℝ))
    (hlo : lo < a) (hhi : b < hi) : lo < pyRound x ∧ pyRound x < hi :=
  ⟨lt_of_lt_of_le hlo (pyRound_ge a x h1), lt_of_le_of_lt (pyRound_le b x h2) hhi⟩

/-! ## Encoder lemmas -/

lemma be32_lt (n : ℕ) : ∀ b ∈ be32 n, b < 256 := by
  intro b hb
  simp [be32] at hb
  omega

lemma crcBitStep_lt (c : ℕ) (h : c < 2 ^ 32) : crcBitStep c < 2 ^ 32 := by
  unfold crcBitStep
  split_ifs
  · exact Nat.xor_lt_two_pow (by omega) (by norm_num)
  · omega

lemma crcBits_lt (k c : ℕ) (h : c < 2 ^ 32) : crcBits c k < 2 ^ 32 := by
  induction k generalizing c with
  | zero => exact h
  | succ k ih => exact ih _ (crcBitStep_lt c h)

lemma crc32Aux_lt (l : List ℕ) (c : ℕ) (hc : c < 2 ^ 32) (hl : ∀ b ∈ l, b < 2 ^ 32) :
    crc32Aux c l < 2 ^ 32 := by
  induction l generalizing c with
  | nil => exact hc
  | cons b rest ih =>
    exact ih _ (crcBits_lt 8 _ (Nat.xor_lt_two_pow hc (hl b (by simp))))
      (fun a ha => hl a (by simp [ha]))

lemma crc32_lt (l : List ℕ) (hl : ∀ b ∈ l, b < 2 ^ 32) : crc32 l < 2 ^ 32 :=
  Nat.xor_lt_two_pow (crc32Aux_lt l _ (by norm_num) hl) (by norm_num)

lemma chunk_eq_specChunk (tag data : List ℕ) (hlen : data.length < 2 ^ 32)
    (hbytes : ∀ b ∈ tag ++ data, b < 2 ^ 32) :
    chunk tag data = some (specChunk tag data) := by
  unfold chunk specChunk
  rw [if_pos hlen, Nat.mod_eq_of_lt (crc32_lt _ hbytes)]
  simp [List.append_assoc]

lemma encodePixels_eq (buf : List Pix) (base count : ℕ)
    (h : ∀ i, i < count → ∃ p, buf[base + i]? = some p ∧ PixInRange p) :
    encodePixels buf base count = some (specRow buf base count) := by
  induction count generalizing base with
  | zero => rfl
  | succ k ih =>
    obtain ⟨p, hp, hpr⟩ := h 0 k.succ_pos
    rw [Nat.add_zero] at hp
    have hpb : pixelBytes p = some (specPixelBytes p) := by
      unfold pixelBytes specPixelBytes
      obtain ⟨a1, a2, a3, a4, a5, a6, a7, a8⟩ := hpr
      rw [if_pos ⟨a1, by omega, a3, by omega, a5, by omega, a7, by omega⟩]
    have hrest : encodePixels buf (base + 1) k = some (specRow buf (base + 1) k) := by
      apply ih
      intro i hi
      have hh := h (i + 1) (by omega)
      rwa [show base + (i + 1) = base + 1 + i by omega] at hh
    have hgd : buf.getD base default = p := by
      rw [List.getD_eq_getElem?_getD, hp]
      rfl
    simp [encodePixels, specRow, hp, hpb, hrest, hgd]

lemma encodeRows_eq (buf : List Pix) (width : ℕ) (k y : ℕ)
    (hmem : ∀ p ∈ buf, PixInRange p) (hlen : (y + k) * width ≤ buf.length) :
    encodeRows buf width y k = some (specRows buf width y k) := by
  induction k generalizing y with
  | zero => rfl
  | succ k ih =>
    have hrow : encodePixels buf (y * width) width = some (specRow buf (y * width) width) := by
      apply encodePixels_eq
      intro i hi
      have h1 : y * width + i < (y + 1) * width := by
        rw [Nat.succ_mul]
        exact Nat.add_lt_add_left hi _
      have h2 : (y + 1) * width ≤ (y + (k + 1)) * width :=
        Nat.mul_le_mul_right width (by omega)
      have hidx : y * width + i < buf.length := lt_of_lt_of_le h1 (le_trans h2 hlen)
      exact ⟨buf[y * width + i], List.getElem?_eq_getElem hidx,
        hmem _ (List.getElem_mem hidx)⟩
    have hrest : encodeRows buf width (y + 1) k = some (specRows buf width (y + 1) k) := by
      apply ih
      rwa [show y + 1 + k = y + (k + 1) by omega]
    simp [encodeRows, specRows, hrow, hrest]

lemma buildRaw_eq (width height : ℕ) (buf : List Pix)
    (hmem : ∀ p ∈ buf, PixInRange p) (hlen : height * width ≤ buf.length) :
    buildRaw width height buf = some (specRaw width height buf) := by
  unfold buildRaw specRaw
  apply encodeRows_eq buf width height 0 hmem
  rwa [Nat.zero_add]

lemma encodePixels_congr (buf1 buf2 : List Pix) (base count : ℕ)
    (h : ∀ i, i < count → buf1[base + i]? = buf2[base + i]?) :
    encodePixels buf1 base count = encodePixels buf2 base count := by
  induction count generalizing base with
  | zero => rfl
  | succ k ih =>
    have h0 := h 0 k.succ_pos
    rw [Nat.add_zero] at h0
    have hr : encodePixels buf1 (base + 1) k = encodePixels buf2 (base + 1) k := by
      apply ih
      intro i hi
      have hh := h (i + 1) (by omega)
      rwa [show base + (i + 1) = base + 1 + i by omega] at hh
    simp only [encodePixels]
    rw [h0, hr]

lemma encodeRows_congr (buf1 buf2 : List Pix) (width : ℕ) (k y : ℕ)
    (h : ∀ j, j < (y + k) * width → buf1[j]? = buf2[j]?) :
    encodeRows buf1 width y k = encodeRows buf2 width y k := by
  induction k generalizing y with
  | zero => rfl
  | succ k ih =>
    have hrow : encodePixels buf1 (y * width) width = encodePixels buf2 (y * width) width := by
      apply encodePixels_congr
      intro i hi
      apply h
      have h1 : y * width + i < (y + 1) * width := by
        rw [Nat.succ_mul]
        exact Nat.add_lt_add_left hi _
      exact lt_of_lt_of_le h1 (Nat.mul_le_mul_right width (by omega))
    have hrest : encodeRows buf1 width (y + 1) k = encodeRows buf2 width (y + 1) k := by
      apply ih
      intro j hj
      apply h j
      rwa [show y + (k + 1) = y + 1 + k by omega]
    simp only [encodeRows]
    rw [hrow, hrest]

lemma buildRaw_take (width height : ℕ) (buf : List Pix) :
    buildRaw width height buf = buildRaw width height (buf.take (width * height)) := by
  unfold buildRaw
  apply encodeRows_congr
  intro j hj
  rw [Nat.zero_add] at hj
  rw [List.getElem?_take_of_lt (by rw [Nat.mul_comm]; exact hj)]

lemma png_bytes_take (w h : ℕ) (buf : List Pix) (compress : List ℕ → List ℕ) :
    png_bytes w h buf compress = png_bytes w h (buf.take (w * h)) compress := by
  unfold png_bytes
  rw [buildRaw_take w h buf]

lemma encodePixels_succ (buf : List Pix) (base k : ℕ) :
    encodePixels buf base (k + 1) =
      (buf[base]?).bind fun p =>
        (pixelBytes p).bind fun pb =>
          (encodePixels buf (base + 1) k).map fun rest => pb ++ rest := rfl

lemma encodeRows_succ (buf : List Pix) (width y k : ℕ) :
    encodeRows buf width y (k + 1) =
      (encodePixels buf (y * width) width).bind fun row =>
        (encodeRows buf width (y + 1) k).map fun rest => (0 :: row) ++ rest := rfl

lemma encodePixels_none (buf : List Pix) (base count : ℕ)
    (hlen : buf.length < base + count) (hc : 0 < count) :
    encodePixels buf base count = none := by
  induction count generalizing base with
  | zero => exact absurd hc (by omega)
  | succ k ih =>
    rw [encodePixels_succ]
    rcases hb : buf[base]? with _ | p
    · rfl
    · have hbase : base < buf.length := by
        by_contra hcon
        rw [List.getElem?_eq_none (by omega)] at hb
        cases hb
      simp only [Option.some_bind]
      rcases hpb : pixelBytes p with _ | pb
      · rfl
      · cases k with
        | zero => exact absurd hbase (by omega)
        | succ k2 =>
          have hr := ih (base + 1) (by omega) k2.succ_pos
          simp only [Option.some_bind, hr]
          rfl

lemma encodeRows_none (buf : List Pix) (width : ℕ) (k y : ℕ)
    (hlen : buf.length < (y + k) * width) (hk : 0 < k) (hw : 0 < width) :
    encodeRows buf width y k = none := by
  induction k generalizing y with
  | zero => exact absurd hk (by omega)
  | succ k ih =>
    rw [encodeRows_succ]
    rcases hrow : encodePixels buf (y * width) width with _ | row
    · rfl
    · cases k with
      | zero =>
        have e : (y + 1) * width = y * width + width := Nat.succ_mul y width
        rw [e] at hlen
        rw [encodePixels_none buf (y * width) width hlen hw] at hrow
        cases hrow
      | succ k2 =>
        have hr := ih (y + 1) (by rwa [show y + 1 + (k2 + 1) = y + (k2 + 1 + 1) by omega])
          k2.succ_pos
        simp only [Option.some_bind, hr]
        rfl

lemma png_bytes_short (w h : ℕ) (buf : List Pix) (compress : List ℕ → List ℕ)
    (hlen : buf.length < w * h) : png_bytes w h buf compress = none := by
  rcases Nat.eq_zero_or_pos w with rfl | hw
  · rw [Nat.zero_mul] at hlen
    exact absurd hlen (Nat.not_lt_zero _)
  rcases Nat.eq_zero_or_pos h with rfl | hh
  · rw [Nat.mul_zero] at hlen
    exact absurd hlen (Nat.not_lt_zero _)
  have hraw : buildRaw w h buf = none := by
    unfold buildRaw
    apply encodeRows_none buf w h 0 _ hh hw
    rw [Nat.zero_add, Nat.mul_comm]
    exact hlen
  unfold png_bytes
  rw [hraw]
  cases packIHDR w h with
  | none => rfl
  | some d =>
    simp only [Option.some_bind]
    cases chunk ihdrTag d with
    | none => rfl
    | some c => rfl

lemma png_bytes_eq (w h : ℕ) (buf : List Pix) (compress : List ℕ → List ℕ)
    (hw : w < 2 ^ 32) (hh : h < 2 ^ 32)
    (hmem : ∀ p ∈ buf, PixInRange p) (hlen : w * h ≤ buf.length)
    (hc : (compress (specRaw w h buf)).length < 2 ^ 32)
    (hcb : ∀ b ∈ compress (specRaw w h buf), b < 256) :
    png_bytes w h buf compress =
      some (pngSignature ++ specChunk ihdrTag (be32 w ++ be32 h ++ [8, 6, 0, 0, 0]) ++
        specChunk idatTag (compress (specRaw w h buf)) ++ specChunk iendTag []) := by
  have hpack : packIHDR w h = some (be32 w ++ be32 h ++ [8, 6, 0, 0, 0]) := by
    unfold packIHDR
    rw [if_pos ⟨hw, hh⟩]
  have hihdr : chunk ihdrTag (be32 w ++ be32 h ++ [8, 6, 0, 0, 0]) =
      some (specChunk ihdrTag (be32 w ++ be32 h ++ [8, 6, 0, 0, 0])) := by
    apply chunk_eq_specChunk
    · simp [be32]
    · intro b hb
      simp [ihdrTag, be32] at hb
      omega
  have hraw : buildRaw w h buf = some (specRaw w h buf) :=
    buildRaw_eq w h buf hmem (by rwa [Nat.mul_comm])
  have hidat : chunk idatTag (compress (specRaw w h buf)) =
      some (specChunk idatTag (compress (specRaw w h buf))) := by
    apply chunk_eq_specChunk _ _ hc
    intro b hb
    rcases List.mem_append.1 hb with hb | hb
    · simp [idatTag] at hb
      omega
    · exact lt_trans (hcb b hb) (by norm_num)
  have hiend : chunk iendTag [] = some (specChunk iendTag []) := by
    apply chunk_eq_specChunk
    · simp
    · intro b hb
      simp [iendTag] at hb
      omega
  unfold png_bytes
  rw [hpack]
  simp only [Option.some_bind]
  rw [hihdr]
  simp only [Option.some_bind]
  rw [hraw]
  simp only [Option.some_bind]
  rw [hidat]
  simp only [Option.some_bind]
  rw [hiend]
  simp only [Option.map_some']

/-! ## Decoder lemmas -/

lemma readBE32_be32 (n : ℕ) (hn : n < 2 ^ 32) (rest : List ℕ) :
    readBE32 (be32 n ++ rest) = some (n, rest) := by
  simp only [be32, List.cons_append, List.nil_append, readBE32]
  have key : ((n / 2 ^ 24 % 256 * 256 + n / 2 ^ 16 % 256) * 256 + n / 2 ^ 8 % 256) * 256 +
      n % 256 = n := by omega
  rw [key]

lemma readChunk_spec (tag data rest : List ℕ) (htag : tag.length = 4)
    (hdlen : data.length < 2 ^ 32) (hbytes : ∀ b ∈ tag ++ data, b < 2 ^ 32) :
    readChunk (specChunk tag data ++ rest) = some ((tag, data), rest) := by
  have hcrc : crc32 (tag ++ data) < 2 ^ 32 := crc32_lt _ hbytes
  have hdrop : ∀ Y : List ℕ, (tag ++ Y).drop 4 = Y := fun Y => by
    rw [← htag, List.drop_left]
  have htake : ∀ Y : List ℕ, (tag ++ Y).take 4 = tag := fun Y => by
    rw [← htag, List.take_left]
  have hXlen : ∀ Y : List ℕ, (tag ++ Y).length = 4 + Y.length := fun Y => by
    simp [htag]
  unfold readChunk specChunk
  simp only [List.append_assoc]
  rw [readBE32_be32 data.length hdlen]
  simp only [Option.some_bind]
  rw [if_pos (by rw [hXlen]; constructor <;> simp [be32])]
  simp only [hdrop, htake, List.drop_left, List.take_left]
  rw [readBE32_be32 (crc32 (tag ++ data)) hcrc]
  simp only [Option.some_bind]
  simp

lemma readIHDR_spec (w h : ℕ) (hw : w < 2 ^ 32) (hh : h < 2 ^ 32) :
    readIHDR (be32 w ++ (be32 h ++ [8, 6, 0, 0, 0])) = some (w, h) := by
  unfold readIHDR
  rw [readBE32_be32 w hw]
  simp only [Option.some_bind]
  rw [readBE32_be32 h hh]
  simp only [Option.some_bind]
  simp

lemma pixList_append (buf : List Pix) (base m n : ℕ) :
    pixList buf base (m + n) = pixList buf base m ++ pixList buf (base + m) n := by
  induction m generalizing base with
  | zero => rw [Nat.zero_add, Nat.add_zero]; rfl
  | succ m ih =>
    have e : m + 1 + n = m + n + 1 := by omega
    rw [e]
    simp only [pixList]
    rw [ih (base + 1), show base + 1 + m = base + (m + 1) by omega]
    rfl

lemma pixList_cons (q : Pix) (t : List Pix) (b c : ℕ) :
    pixList (q :: t) (b + 1) c = pixList t b c := by
  induction c generalizing b with
  | zero => rfl
  | succ c ih =>
    simp only [pixList, List.getD_cons_succ]
    rw [ih (b + 1)]

lemma pixList_self (buf : List Pix) : pixList buf 0 buf.length = buf := by
  induction buf with
  | nil => rfl
  | cons q t ih =>
    simp only [List.length_cons, pixList, List.getD_cons_zero]
    rw [show (0 : ℕ) + 1 = 0 + 1 from rfl, pixList_cons]
    rw [ih]

lemma readPixels_spec (buf : List Pix) (base count : ℕ) (rest : List ℕ)
    (h : ∀ i, i < count → PixInRange (buf.getD (base + i) default)) :
    readPixels count (specRow buf base count ++ rest) =
      some (pixList buf base count, rest) := by
  induction count generalizing base with
  | zero => rfl
  | succ k ih =>
    have h0 := h 0 k.succ_pos
    rw [Nat.add_zero] at h0
    obtain ⟨a1, a2, a3, a4, a5, a6, a7, a8⟩ := h0
    simp only [specRow, specPixelBytes, List.append_eq, List.cons_append, List.nil_append,
      List.append_assoc, readPixels]
    rw [ih (base + 1) (fun i hi => by
      have hh := h (i + 1) (by omega)
      rwa [show base + (i + 1) = base + 1 + i by omega] at hh)]
    simp only [Option.map_some']
    simp only [pixList]
    rw [Int.toNat_of_nonneg a1, Int.toNat_of_nonneg a3, Int.toNat_of_nonneg a5,
      Int.toNat_of_nonneg a7]
    rfl

lemma readRows_spec (buf : List Pix) (width : ℕ) (k y : ℕ)
    (h : ∀ i, i < k * width → PixInRange (buf.getD (y * width + i) default)) :
    readRows width k (specRows buf width y k) =
      some (pixList buf (y * width) (k * width)) := by
  induction k generalizing y with
  | zero => rw [Nat.zero_mul]; rfl
  | succ k ih =>
    simp only [specRows, List.append_eq, List.cons_append, List.nil_append,
      List.append_assoc, readRows]
    rw [readPixels_spec buf (y * width) width (specRows buf width (y + 1) k)
      (fun i hi => h i (lt_of_lt_of_le hi (Nat.le_mul_of_pos_left width k.succ_pos)))]
    simp only [Option.some_bind]
    rw [ih (y + 1) (fun i hi => by
      have hh := h (width + i) (by
        have e : (k + 1) * width = width + k * width := by ring
        omega)
      rwa [show y * width + (width + i) = (y + 1) * width + i by ring] at hh)]
    simp only [Option.map_some']
    rw [show (k + 1) * width = width + k * width by ring,
      pixList_append buf (y * width) width (k * width),
      show y * width + width = (y + 1) * width by ring]

lemma specRow_length (buf : List Pix) (base count : ℕ) :
    (specRow buf base count).length = 4 * count := by
  induction count generalizing base with
  | zero => rfl
  | succ k ih =>
    simp only [specRow, specPixelBytes, List.length_append, List.length_cons,
      List.length_nil, ih]
    omega

lemma specRows_length (buf : List Pix) (width y k : ℕ) :
    (specRows buf width y k).length = k * (1 + 4 * width) := by
  induction k generalizing y with
  | zero => rw [Nat.zero_mul]; rfl
  | succ k ih =>
    simp only [specRows, List.length_append, List.length_cons, specRow_length, ih]
    ring

lemma getD_inRange (buf : List Pix) (hmem : ∀ p ∈ buf, PixInRange p) (i : ℕ) :
    PixInRange (buf.getD i default) := by
  rcases lt_or_ge i buf.length with hi | hi
  · rw [List.getD_eq_getElem?_getD, List.getElem?_eq_getElem hi]
    exact hmem _ (List.getElem_mem hi)
  · rw [List.getD_eq_getElem?_getD, List.getElem?_eq_none hi]
    decide

lemma specRow_bytes (buf : List Pix) (hmem : ∀ p ∈ buf, PixInRange p) (base count : ℕ) :
    ∀ b ∈ specRow buf base count, b < 256 := by
  induction count generalizing base with
  | zero => intro b hb; cases hb
  | succ k ih =>
    intro b hb
    simp only [specRow, List.mem_append] at hb
    rcases hb with hb | hb
    · obtain ⟨a1, a2, a3, a4, a5, a6, a7, a8⟩ := getD_inRange buf hmem base
      simp only [specPixelBytes, List.mem_cons, List.not_mem_nil, or_false] at hb
      rcases hb with rfl | rfl | rfl | rfl
      · have := Int.toNat_le.2 a2
        omega
      · have := Int.toNat_le.2 a4
        omega
      · have := Int.toNat_le.2 a6
        omega
      · have := Int.toNat_le.2 a8
        omega
    · exact ih (base + 1) b hb

lemma specRows_bytes (buf : List Pix) (hmem : ∀ p ∈ buf, PixInRange p) (width y k : ℕ) :
    ∀ b ∈ specRows buf width y k, b < 256 := by
  induction k generalizing y with
  | zero => intro b hb; cases hb
  | succ k ih =>
    intro b hb
    simp only [specRows, List.cons_append, List.mem_cons, List.mem_append] at hb
    rcases hb with rfl | hb | hb
    · norm_num
    · exact specRow_bytes buf hmem (y * width) width b hb
    · exact ih (y + 1) b hb

lemma chunk_some (tag data : List ℕ) (h : data.length < 2 ^ 32) :
    chunk tag data =
      some (be32 data.length ++ (tag ++ data) ++ be32 (crc32 (tag ++ data) % 2 ^ 32)) := by
  unfold chunk
  rw [if_pos h]

lemma png_bytes_isSome (w h : ℕ) (buf : List Pix) (compress : List ℕ → List ℕ)
    (hw : w < 2 ^ 32) (hh : h < 2 ^ 32) (hmem : ∀ p ∈ buf, PixInRange p)
    (hlen : w * h ≤ buf.length) (hc : (compress (specRaw w h buf)).length < 2 ^ 32) :
    (png_bytes w h buf compress).isSome := by
  unfold png_bytes
  rw [show packIHDR w h = some (be32 w ++ be32 h ++ [8, 6, 0, 0, 0]) from by
    unfold packIHDR
    rw [if_pos ⟨hw, hh⟩]]
  simp only [Option.some_bind]
  rw [chunk_some ihdrTag _ (by simp [be32])]
  simp only [Option.some_bind]
  rw [buildRaw_eq w h buf hmem (by rwa [Nat.mul_comm])]
  simp only [Option.some_bind]
  rw [chunk_some idatTag _ hc]
  simp only [Option.some_bind]
  rw [chunk_some iendTag [] (by norm_num)]
  rfl

/-! ## Driver lemmas -/

lemma iconFile_ne (dir : String) (s t : ℕ) (h : toString s ≠ toString t) :
    iconFile dir s ≠ iconFile dir t := by
  intro heq
  apply h
  unfold iconFile at heq
  have hd := congrArg String.data heq
  simp only [String.data_append, List.append_assoc] at hd
  have h1 := List.append_cancel_left hd
  have h2 := List.append_cancel_left h1
  have h3 := List.append_cancel_right h2
  exact String.ext h3

lemma specRaw_length (w h : ℕ) (buf : List Pix) :
    (specRaw w h buf).length = h * (1 + 4 * w) :=
  specRows_length buf w 0 h

lemma specRaw_bytes (w h : ℕ) (buf : List Pix) (hmem : ∀ p ∈ buf, PixInRange p) :
    ∀ b ∈ specRaw w h buf, b < 256 :=
  specRows_bytes buf hmem w 0 h

lemma pngDecode_encode (w h : ℕ) (buf : List Pix) (compress : List ℕ → List ℕ)
    (decompress : List ℕ → Option (List ℕ))
    (hw : w < 2 ^ 32) (hh : h < 2 ^ 32)
    (hmem : ∀ p ∈ buf, PixInRange p) (hlen : buf.length = w * h)
    (hc : (compress (specRaw w h buf)).length < 2 ^ 32)
    (hcb : ∀ b ∈ compress (specRaw w h buf), b < 256)
    (hinv : decompress (compress (specRaw w h buf)) = some (specRaw w h buf)) :
    (png_bytes w h buf compress).bind (pngDecode decompress) = some (w, h, buf) := by
  have htake8 : ∀ Y : List ℕ, (pngSignature ++ Y).take 8 = pngSignature := fun Y => by
    rw [show (8 : ℕ) = pngSignature.length from rfl, List.take_left]
  have hdrop8 : ∀ Y : List ℕ, (pngSignature ++ Y).drop 8 = Y := fun Y => by
    rw [show (8 : ℕ) = pngSignature.length from rfl, List.drop_left]
  rw [png_bytes_eq w h buf compress hw hh hmem (le_of_eq hlen.symm) hc hcb]
  simp only [Option.some_bind]
  unfold pngDecode
  simp only [List.append_assoc]
  rw [htake8, if_pos rfl, hdrop8]
  rw [readChunk_spec ihdrTag (be32 w ++ (be32 h ++ [8, 6, 0, 0, 0])) _ rfl
    (by simp [be32]) (by intro b hb; simp [ihdrTag, be32] at hb; omega)]
  simp only [Option.some_bind]
  rw [if_true]
  rw [readIHDR_spec w h hw hh]
  simp only [Option.some_bind]
  rw [readChunk_spec idatTag (compress (specRaw w h buf)) _ rfl hc
    (by intro b hb
        rcases List.mem_append.1 hb with hb | hb
        · simp [idatTag] at hb
          omega
        · exact lt_trans (hcb b hb) (by norm_num))]
  simp only [Option.some_bind]
  rw [if_true]
  have hiendchunk : readChunk (specChunk iendTag []) = some ((iendTag, []), []) := by
    have h3 := readChunk_spec iendTag [] [] rfl (by norm_num)
      (by intro b hb; simp [iendTag] at hb; omega)
    rwa [List.append_nil] at h3
  rw [hiendchunk]
  simp only [Option.some_bind]
  rw [if_pos ⟨trivial, trivial, trivial⟩]
  rw [hinv]
  simp only [Option.some_bind]
  have hrows : readRows w h (specRaw w h buf) = some buf := by
    unfold specRaw
    have h0 := readRows_spec buf w h 0 (fun i hi => by
      rw [Nat.zero_mul, Nat.zero_add]
      exact getD_inRange buf hmem i)
    rw [Nat.zero_mul] at h0
    rw [h0, show h * w = buf.length by rw [hlen]; ring, pixList_self]
  rw [hrows]
  rfl

/-! ## Claim theorems: the rasterizer -/

/-- C3: for every size and every pixel, the background alpha computed by the
code equals `clamp(0.5 − d, 0, 1)` with `d = hypot(rx, ry) − R`, `R = 0.22·S`,
`rx = max(R − cx, cx − (S − R), 0)` and `ry` likewise, exactly as the spec
words it. -/
theorem C3_background_alpha (size x y : ℕ) :
    bg_alpha size x y = specBgAlpha size x y :=
  bg_alpha_eq_spec size x y

/-- C4: for every size and every pixel, the glyph alpha computed by the code
equals the maximum over the three bars of the product of the two soft-edge
ramps (feather 0.8 px), with the bar offsets and widths listed by the spec. -/
theorem C4_glyph_alpha (size x y : ℕ) :
    fg_alpha size x y = specGlyphAlpha size x y :=
  fg_alpha_eq_spec size x y

/-- C2: for every size and every pixel, compositing follows the spec:
`(0,0,0,0)` when the background alpha is ≤ 0, otherwise the rounded linear
interpolation from (26,115,232) to (255,255,255) by the glyph alpha, with
alpha channel `round(background alpha × 255)`. -/
theorem C2_compositing (size x y : ℕ) : iconPixel size x y = specPix size x y := by
  unfold iconPixel specPix
  rw [bg_alpha_eq_spec, fg_alpha_eq_spec]

/-- C5: for every size in {16, 32, 48, 128}, `draw_icon` returns a row-major
buffer of exactly S×S pixels (the pixel for image position (x, y) sits at
index y·S + x) and every pixel is a 4-tuple of integers in [0, 255]. -/
theorem C5_buffer_shape :
    ∀ s ∈ sizes, (draw_icon s).length = s * s ∧
      (∀ x y : ℕ, x < s → y < s → (draw_icon s)[y * s + x]? = some (iconPixel s x y)) ∧
      (∀ p ∈ draw_icon s, PixInRange p) := by
  intro s _
  exact ⟨draw_icon_length s, fun x y hx hy => draw_icon_get s x y hx hy, draw_icon_mem s⟩

/-- Witness for C5 at size 16. -/
theorem C5_witness :
    (draw_icon 16).length = 16 * 16 ∧ (draw_icon 16)[0]? = some (iconPixel 16 0 0) :=
  ⟨(C5_buffer_shape 16 (by decide)).1,
    (C5_buffer_shape 16 (by decide)).2.1 0 0 (by decide) (by decide)⟩

/-- C8 counterexample: the pixel (0, 1) of the size-16 icon has its center
strictly outside the rounded-square footprint (the signed corner distance is
positive), yet its alpha channel is not 0 — it lies in the antialiasing
band, so the claim "strictly outside ⇒ (0,0,0,0)" fails as stated. -/
theorem C8_counterexample :
    (0 : ℝ) < dist_corner 16 0 1 ∧ (iconPixel 16 0 1).2.2.2 ≠ 0 := by
  have e1 : max (max (((16 : ℕ) : ℝ) * 0.22 - (((0 : ℕ) : ℝ) + 0.5))
      ((((0 : ℕ) : ℝ) + 0.5) - (((16 : ℕ) : ℝ) - ((16 : ℕ) : ℝ) * 0.22))) 0 =
      ((16 : ℕ) : ℝ) * 0.22 - (((0 : ℕ) : ℝ) + 0.5) := by
    rw [max_eq_left (by push_cast; norm_num), max_eq_left (by push_cast; norm_num)]
  have e2 : max (max (((16 : ℕ) : ℝ) * 0.22 - (((1 : ℕ) : ℝ) + 0.5))
      ((((1 : ℕ) : ℝ) + 0.5) - (((16 : ℕ) : ℝ) - ((16 : ℕ) : ℝ) * 0.22))) 0 =
      ((16 : ℕ) : ℝ) * 0.22 - (((1 : ℕ) : ℝ) + 0.5) := by
    rw [max_eq_left (by push_cast; norm_num), max_eq_left (by push_cast; norm_num)]
  have v1 : ((16 : ℕ) : ℝ) * 0.22 - (((0 : ℕ) : ℝ) + 0.5) = 3.02 := by push_cast; norm_num
  have v2 : ((16 : ℕ) : ℝ) * 0.22 - (((1 : ℕ) : ℝ) + 0.5) = 2.02 := by push_cast; norm_num
  have vR : ((16 : ℕ) : ℝ) * 0.22 = 3.52 := by push_cast; norm_num
  have hdl : (0 : ℝ) < dist_corner 16 0 1 := by
    simp only [dist_corner]
    rw [e1, e2, v1, v2, vR]
    have h := (Real.lt_sqrt (by norm_num : (0 : ℝ) ≤ 3.52)).2
      (by norm_num : (3.52 : ℝ) ^ 2 < (3.02 : ℝ) ^ 2 + (2.02 : ℝ) ^ 2)
    linarith
  have hdu : dist_corner 16 0 1 ≤ 0.15 := by
    simp only [dist_corner]
    rw [e1, e2, v1, v2, vR]
    have h := (Real.sqrt_lt' (by norm_num : (0 : ℝ) < 3.67)).2
      (by norm_num : (3.02 : ℝ) ^ 2 + (2.02 : ℝ) ^ 2 < (3.67 : ℝ) ^ 2)
    linarith
  have hbg_lb : (0.35 : ℝ) ≤ bg_alpha 16 0 1 := by
    unfold bg_alpha
    exact le_trans (le_min (by norm_num) (by linarith)) (le_max_right _ _)
  refine ⟨hdl, ?_⟩
  have hbg_pos : ¬ bg_alpha 16 0 1 ≤ 0 := by linarith
  unfold iconPixel
  rw [if_neg hbg_pos]
  have halpha : (89 : ℤ) ≤ pyRound (bg_alpha 16 0 1 * 255) :=
    pyRound_ge 89 _ (by push_cast; linarith)
  show pyRound (bg_alpha 16 0 1 * 255) ≠ 0
  omega

/-- C8 (amended): a pixel whose center lies at signed distance at least 0.5
outside the rounded-square boundary is exactly (0, 0, 0, 0); in particular
the four extreme corner pixels of the size-128 icon are (0, 0, 0, 0).
(The claim as stated fails for pixels in the ~1px antialiasing band, whose
centers are strictly outside the boundary but whose alpha is positive.) -/
theorem C8_amended (size x y : ℕ)
    (h : (0.5 : ℝ) ≤ dist_corner size x y ∨
      size = 128 ∧ (x = 0 ∨ x = 127) ∧ (y = 0 ∨ y = 127)) :
    iconPixel size x y = ((0 : ℤ), 0, 0, 0) := by
  rcases h with h | ⟨rfl, hx, hy⟩
  · exact iconPixel_transparent _ _ _ (le_of_eq (bg_alpha_zero _ _ _ h))
  · exact iconPixel_transparent _ _ _
      (le_of_eq (bg_alpha_zero _ _ _ (dist_corner_corner128 x y hx hy)))

/-- Witness for C8 at the corner pixel (0, 0) of the size-128 icon. -/
theorem C8_witness : iconPixel 128 0 0 = ((0 : ℤ), 0, 0, 0) :=
  C8_amended 128 0 0 (Or.inr ⟨rfl, Or.inl rfl, Or.inl rfl⟩)

/-- C7 counterexample: the center pixel (8, 8) of the size-16 icon has its
center (8.5, 8.5) inside the middle glyph bar and has alpha 255, yet its red
channel is not 255 — the bar only partially covers the pixel (glyph alpha
0.625), so the "covered ⇒ RGB (255,255,255)" part of the claim fails. -/
theorem C7_counterexample :
    CenterCovered 16 8 8 ∧ (iconPixel 16 8 8).2.2.2 = 255 ∧ (iconPixel 16 8 8).1 ≠ 255 := by
  have hbg : bg_alpha 16 8 8 = 1 :=
    bg_alpha_one 16 8 8 (by push_cast; norm_num) (by push_cast; norm_num)
      (by push_cast; norm_num) (by push_cast; norm_num) (by push_cast; norm_num)
  have hpix := iconPixel_opaque 16 8 8 hbg
  have hfg : fg_alpha 16 8 8 = 0.625 := fg_16_8 8 (Or.inr rfl)
  refine ⟨⟨1, by norm_num, ?_, ?_, ?_, ?_⟩, by rw [hpix], ?_⟩
  · simp only [specBarTop]
    norm_num
  · simp only [specBarTop]
    norm_num
  · norm_num
  · simp only [specBarWidth]
    norm_num
  · rw [hpix, hfg]
    have hub : pyRound (lerp 26 255 (0.625 : ℝ)) ≤ 170 :=
      pyRound_le 170 _ (by norm_num [lerp])
    show pyRound (lerp 26 255 (0.625 : ℝ)) ≠ 255
    omega

/-- C7 (amended): for every size S in {16, 32, 48, 128}, the four pixels at
the image center all have alpha 255. None of them is fully covered by a
glyph bar: the upper center row (and, for S = 48 and S = 128, both rows) has
glyph alpha 0 and RGB exactly (26, 115, 232), while for S = 16 and S = 32
the lower center row is only partially covered by the middle bar and each of
its RGB channels lies strictly between the background and the foreground
values. (The claim's dichotomy "covered ⇒ white / uncovered ⇒ blue" fails:
at the center, coverage is partial.) -/
theorem C7_amended :
    ∀ s x y : ℕ, s ∈ sizes → (x = s / 2 - 1 ∨ x = s / 2) → (y = s / 2 - 1 ∨ y = s / 2) →
      (iconPixel s x y).2.2.2 = 255 ∧
      (y = s / 2 - 1 ∨ s = 48 ∨ s = 128 → iconPixel s x y = ((26 : ℤ), 115, 232, 255)) ∧
      (y = s / 2 ∧ (s = 16 ∨ s = 32) →
        26 < (iconPixel s x y).1 ∧ (iconPixel s x y).1 < 255 ∧
        115 < (iconPixel s x y).2.1 ∧ (iconPixel s x y).2.1 < 255 ∧
        232 < (iconPixel s x y).2.2.1 ∧ (iconPixel s x y).2.2.1 < 255) := by
  intro s x y hs hx hy
  fin_cases hs
  · -- size 16
    have hxn : x = 7 ∨ x = 8 := by omega
    have hxlr : (7 : ℝ) ≤ (x : ℝ) := by exact_mod_cast (by omega : 7 ≤ x)
    have hxur : (x : ℝ) ≤ 8 := by exact_mod_cast (by omega : x ≤ 8)
    rcases hy with hy | hy
    · have hy7 : y = 7 := by omega
      subst hy7
      have hbg : bg_alpha 16 x 7 = 1 :=
        bg_alpha_one 16 x 7 (by push_cast; linarith) (by push_cast; linarith)
          (by push_cast; norm_num) (by push_cast; norm_num) (by push_cast; norm_num)
      have hfg : fg_alpha 16 x 7 = 0 :=
        fg_alpha_zero 16 x 7 (by push_cast; norm_num [min_def])
          (by push_cast; norm_num [min_def]) (by push_cast; norm_num [min_def])
      have hblue := iconPixel_blue 16 x 7 hbg hfg
      exact ⟨by rw [hblue], fun _ => hblue, fun hcon => absurd hcon.1 (by omega)⟩
    · have hy8 : y = 8 := by omega
      subst hy8
      have hbg : bg_alpha 16 x 8 = 1 :=
        bg_alpha_one 16 x 8 (by push_cast; linarith) (by push_cast; linarith)
          (by push_cast; norm_num) (by push_cast; norm_num) (by push_cast; norm_num)
      have hpix := iconPixel_opaque 16 x 8 hbg
      have hfg : fg_alpha 16 x 8 = 0.625 := fg_16_8 x hxn
      have hr := pyRound_span (lerp 26 255 (0.625 : ℝ)) 169 170 26 255
        (by norm_num [lerp]) (by norm_num [lerp]) (by norm_num) (by norm_num)
      have hg := pyRound_span (lerp 115 255 (0.625 : ℝ)) 202 203 115 255
        (by norm_num [lerp]) (by norm_num [lerp]) (by norm_num) (by norm_num)
      have hb := pyRound_span (lerp 232 255 (0.625 : ℝ)) 246 247 232 255
        (by norm_num [lerp]) (by norm_num [lerp]) (by norm_num) (by norm_num)
      refine ⟨by rw [hpix], fun hcon => absurd hcon (by omega), fun _ => ?_⟩
      rw [hpix, hfg]
      exact ⟨hr.1, hr.2, hg.1, hg.2, hb.1, hb.2⟩
  · -- size 32
    have hxn : x = 15 ∨ x = 16 := by omega
    have hxlr : (15 : ℝ) ≤ (x : ℝ) := by exact_mod_cast (by omega : 15 ≤ x)
    have hxur : (x : ℝ) ≤ 16 := by exact_mod_cast (by omega : x ≤ 16)
    rcases hy with hy | hy
    · have hy15 : y = 15 := by omega
      subst hy15
      have hbg : bg_alpha 32 x 15 = 1 :=
        bg_alpha_one 32 x 15 (by push_cast; linarith) (by push_cast; linarith)
          (by push_cast; norm_num) (by push_cast; norm_num) (by push_cast; norm_num)
      have hfg : fg_alpha 32 x 15 = 0 :=
        fg_alpha_zero 32 x 15 (by push_cast; norm_num [min_def])
          (by push_cast; norm_num [min_def]) (by push_cast; norm_num [min_def])
      have hblue := iconPixel_blue 32 x 15 hbg hfg
      exact ⟨by rw [hblue], fun _ => hblue, fun hcon => absurd hcon.1 (by omega)⟩
    · have hy16 : y = 16 := by omega
      subst hy16
      have hbg : bg_alpha 32 x 16 = 1 :=
        bg_alpha_one 32 x 16 (by push_cast; linarith) (by push_cast; linarith)
          (by push_cast; norm_num) (by push_cast; norm_num) (by push_cast; norm_num)
      have hpix := iconPixel_opaque 32 x 16 hbg
      have hfg : fg_alpha 32 x 16 = 0.125 := fg_32_16 x hxn
      have hr := pyRound_span (lerp 26 255 (0.125 : ℝ)) 54 55 26 255
        (by norm_num [lerp]) (by norm_num [lerp]) (by norm_num) (by norm_num)
      have hg := pyRound_span (lerp 115 255 (0.125 : ℝ)) 132 133 115 255
        (by norm_num [lerp]) (by norm_num [lerp]) (by norm_num) (by norm_num)
      have hb := pyRound_span (lerp 232 255 (0.125 : ℝ)) 234 235 232 255
        (by norm_num [lerp]) (by norm_num [lerp]) (by norm_num) (by norm_num)
      refine ⟨by rw [hpix], fun hcon => absurd hcon (by omega), fun _ => ?_⟩
      rw [hpix, hfg]
      exact ⟨hr.1, hr.2, hg.1, hg.2, hb.1, hb.2⟩
  · -- size 48: both center rows are uncovered
    have hxlr : (23 : ℝ) ≤ (x : ℝ) := by exact_mod_cast (by omega : 23 ≤ x)
    have hxur : (x : ℝ) ≤ 24 := by exact_mod_cast (by omega : x ≤ 24)
    have hylr : (23 : ℝ) ≤ (y : ℝ) := by exact_mod_cast (by omega : 23 ≤ y)
    have hyur : (y : ℝ) ≤ 24 := by exact_mod_cast (by omega : y ≤ 24)
    have hbg : bg_alpha 48 x y = 1 :=
      bg_alpha_one 48 x y (by push_cast; linarith) (by push_cast; linarith)
        (by push_cast; linarith) (by push_cast; linarith) (by push_cast; norm_num)
    have hfg : fg_alpha 48 x y = 0 :=
      fg_alpha_zero 48 x y
        (le_trans (min_le_right _ _) (by push_cast; linarith))
        (le_trans (min_le_left _ _) (by push_cast; linarith))
        (le_trans (min_le_left _ _) (by push_cast; linarith))
    have hblue := iconPixel_blue 48 x y hbg hfg
    exact ⟨by rw [hblue], fun _ => hblue, fun hcon => absurd hcon (by omega)⟩
  · -- size 128: both center rows are uncovered
    have hxlr : (63 : ℝ) ≤ (x : ℝ) := by exact_mod_cast (by omega : 63 ≤ x)
    have hxur : (x : ℝ) ≤ 64 := by exact_mod_cast (by omega : x ≤ 64)
    have hylr : (63 : ℝ) ≤ (y : ℝ) := by exact_mod_cast (by omega : 63 ≤ y)
    have hyur : (y : ℝ) ≤ 64 := by exact_mod_cast (by omega : y ≤ 64)
    have hbg : bg_alpha 128 x y = 1 :=
      bg_alpha_one 128 x y (by push_cast; linarith) (by push_cast; linarith)
        (by push_cast; linarith) (by push_cast; linarith) (by push_cast; norm_num)
    have hfg : fg_alpha 128 x y = 0 :=
      fg_alpha_zero 128 x y
        (le_trans (min_le_right _ _) (by push_cast; linarith))
        (le_trans (min_le_left _ _) (by push_cast; linarith))
        (le_trans (min_le_left _ _) (by push_cast; linarith))
    have hblue := iconPixel_blue 128 x y hbg hfg
    exact ⟨by rw [hblue], fun _ => hblue, fun hcon => absurd hcon (by omega)⟩

/-- C1: for width and height below 2^32 (the range of the 4-byte big-endian
fields) and a pixel buffer of matching length with 8-bit channels, the
encoder's output is the PNG signature followed by exactly the three chunks
IHDR (payload `(w, h, 8, 6, 0, 0, 0)` packed big-endian), IDAT (payload the
compressed raw scanline data: per row a filter byte 0 then 4 bytes per
pixel), and IEND (empty payload), each framed as big-endian payload length,
4-byte ASCII type, payload, and CRC-32 of type+payload. The deflate
compressor (`zlib.compress(·, 9)` in the source) is the abstract `compress`,
assumed to produce fewer than 2^32 bytes here. -/
theorem C1_png_structure (w h : ℕ) (buf : List Pix) (compress : List ℕ → List ℕ)
    (hw : w < 2 ^ 32) (hh : h < 2 ^ 32)
    (hbuf : ∀ p ∈ buf, PixInRange p) (hlen : buf.length = w * h)
    (hc : (compress (specRaw w h buf)).length < 2 ^ 32)
    (hcb : ∀ b ∈ compress (specRaw w h buf), b < 256) :
    png_bytes w h buf compress =
      some (pngSignature ++ specChunk ihdrTag (be32 w ++ be32 h ++ [8, 6, 0, 0, 0]) ++
        specChunk idatTag (compress (specRaw w h buf)) ++ specChunk iendTag []) :=
  png_bytes_eq w h buf compress hw hh hbuf (le_of_eq hlen.symm) hc hcb

/-- Witness for C1 at a 1×1 image with a single black transparent pixel and
the trivial compressor. -/
theorem C1_witness :
    png_bytes 1 1 [((0 : ℤ), 0, 0, 0)] (fun _ => []) =
      some (pngSignature ++ specChunk ihdrTag (be32 1 ++ be32 1 ++ [8, 6, 0, 0, 0]) ++
        specChunk idatTag [] ++ specChunk iendTag []) :=
  C1_png_structure 1 1 [((0 : ℤ), 0, 0, 0)] (fun _ => []) (by norm_num) (by norm_num)
    (by decide) rfl (by norm_num) (by simp)

/-- C10 counterexample: a buffer of length 1 ≥ width×height = 1 whose single
pixel has a channel value 256 outside `range(0, 256)`: the encoder's
`bytes([r, g, b, a])` raises, so no byte string is produced even though no
index is out of range — the claim "length ≥ w·h ⇒ succeeds" fails as
stated. -/
theorem C10_counterexample :
    1 * 1 ≤ ([((256 : ℤ), 0, 0, 0)] : List Pix).length ∧
      png_bytes 1 1 [((256 : ℤ), 0, 0, 0)] (fun l => l) = none := by
  constructor
  · simp
  · rfl

/-- C10 (amended): the encoder reads only the buffer entries at indices
`y·width + x` for `y < height`, `x < width`, so its output does not depend
on entries beyond the first width×height, and a buffer shorter than
width×height always fails (the out-of-bounds indexing branch is reached).
A buffer of sufficient length succeeds provided additionally every channel
of its pixels lies in [0, 255] (otherwise `bytes(...)` raises — this is
what the counterexample forces), the dimensions fit the 4-byte length
fields, and the compressor output fits a chunk. -/
theorem C10_amended (w h : ℕ) (buf : List Pix) (compress : List ℕ → List ℕ) :
    png_bytes w h buf compress = png_bytes w h (buf.take (w * h)) compress ∧
    (buf.length < w * h → png_bytes w h buf compress = none) ∧
    (w < 2 ^ 32 → h < 2 ^ 32 → (∀ p ∈ buf, PixInRange p) → w * h ≤ buf.length →
      (compress (specRaw w h (buf.take (w * h)))).length < 2 ^ 32 →
      (png_bytes w h buf compress).isSome) := by
  refine ⟨png_bytes_take w h buf compress,
    fun hl => png_bytes_short w h buf compress hl, ?_⟩
  intro hw hh hmem hlen hc
  have hlen2 : w * h ≤ (buf.take (w * h)).length := by
    rw [List.length_take]
    omega
  rw [png_bytes_take w h buf compress]
  exact png_bytes_isSome w h (buf.take (w * h)) compress hw hh
    (fun p hp => hmem p (List.mem_of_mem_take hp)) hlen2 hc

/-- Witness for C10: a 1×1 encode with one extra buffer entry succeeds, and
a 1×2 encode of a one-pixel buffer fails. -/
theorem C10_witness :
    (png_bytes 1 1 [((0 : ℤ), 0, 0, 0), ((7 : ℤ), 7, 7, 7)] (fun _ => [])).isSome ∧
      png_bytes 1 2 [((0 : ℤ), 0, 0, 0)] (fun _ => []) = none :=
  ⟨(C10_amended 1 1 [((0 : ℤ), 0, 0, 0), ((7 : ℤ), 7, 7, 7)] (fun _ => [])).2.2
      (by norm_num) (by norm_num) (by decide) (by decide) (by norm_num),
    (C10_amended 1 2 [((0 : ℤ), 0, 0, 0)] (fun _ => [])).2.1 (by norm_num)⟩

/-- C6: decoding the encoder's output with a standard PNG decoder (parsing
the chunks, inflating the IDAT payload, stripping the per-row filter byte 0
and regrouping 4 bytes per pixel) reproduces the input pixel buffer exactly,
for the size-16 buffer produced by the rasterizer. `compress`/`decompress`
stand for `zlib.compress(·, 9)` and the matching inflater; the hypotheses
are the zlib contract on the one byte string involved: inflation inverts
compression, and the compressed stream is made of bytes and fits a chunk. -/
theorem C6_roundtrip (compress : List ℕ → List ℕ) (decompress : List ℕ → Option (List ℕ))
    (hc : (compress (specRaw 16 16 (draw_icon 16))).length < 2 ^ 32)
    (hcb : ∀ b ∈ compress (specRaw 16 16 (draw_icon 16)), b < 256)
    (hinv : decompress (compress (specRaw 16 16 (draw_icon 16))) =
      some (specRaw 16 16 (draw_icon 16))) :
    (png_bytes 16 16 (draw_icon 16) compress).bind (pngDecode decompress) =
      some (16, 16, draw_icon 16) :=
  pngDecode_encode 16 16 (draw_icon 16) compress decompress (by norm_num) (by norm_num)
    (draw_icon_mem 16) (draw_icon_length 16) hc hcb hinv

/-- Witness for C6 with the identity compressor. -/
theorem C6_witness :
    (png_bytes 16 16 (draw_icon 16) (fun l => l)).bind (pngDecode (fun l => some l)) =
      some (16, 16, draw_icon 16) :=
  C6_roundtrip (fun l => l) (fun l => some l)
    (by show (specRaw 16 16 (draw_icon 16)).length < 2 ^ 32
        rw [specRaw_length]
        norm_num)
    (by show ∀ b ∈ specRaw 16 16 (draw_icon 16), b < 256
        exact specRaw_bytes 16 16 (draw_icon 16) (draw_icon_mem 16))
    rfl

/-- Witness for C7 at size 16, center pixel (7, 7). -/
theorem C7_witness :
    (iconPixel 16 7 7).2.2.2 = 255 ∧
    (7 = 16 / 2 - 1 ∨ 16 = 48 ∨ 16 = 128 → iconPixel 16 7 7 = ((26 : ℤ), 115, 232, 255)) ∧
    (7 = 16 / 2 ∧ (16 = 16 ∨ 16 = 32) →
      26 < (iconPixel 16 7 7).1 ∧ (iconPixel 16 7 7).1 < 255 ∧
      115 < (iconPixel 16 7 7).2.1 ∧ (iconPixel 16 7 7).2.1 < 255 ∧
      232 < (iconPixel 16 7 7).2.2.1 ∧ (iconPixel 16 7 7).2.2.1 < 255) :=
  C7_amended 16 7 7 (by decide) (Or.inl (by decide)) (Or.inl (by decide))

/-- C9: the driver processes the sizes in the fixed order 16, 32, 48, 128,
for each rasterizing, encoding, and writing the bytes to `icon<size>.png`
in the program's directory (overwriting any existing file). If every write
succeeds, all four files hold the corresponding encoder output; if the
write for some size fails while the earlier ones succeed, the error is that
size's path and no file for it or any later size in the list is written.
`compress` stands for `zlib.compress(·, 9)`, assumed to emit fewer than
2^32 bytes. -/
theorem C9_driver (compress : List ℕ → List ℕ) (fails : String → Bool) (dir : String)
    (fs : FS) (hc : ∀ l, (compress l).length < 2 ^ 32) :
    ((∀ s ∈ sizes, fails (iconFile dir s) = false) →
      (main compress fails dir fs).2 = none ∧
      ∀ s ∈ sizes, (main compress fails dir fs).1 (iconFile dir s) =
        png_bytes s s (draw_icon s) compress) ∧
    (∀ pre s post, sizes = pre ++ s :: post →
      (∀ t ∈ pre, fails (iconFile dir t) = false) →
      fails (iconFile dir s) = true →
      (main compress fails dir fs).2 = some (iconFile dir s) ∧
      ∀ t ∈ s :: post, (main compress fails dir fs).1 (iconFile dir t) =
        fs (iconFile dir t)) := by
  obtain ⟨o16, ho16⟩ := Option.isSome_iff_exists.1 (png_bytes_isSome 16 16 (draw_icon 16)
    compress (by norm_num) (by norm_num) (draw_icon_mem 16)
    (le_of_eq (draw_icon_length 16).symm) (hc _))
  obtain ⟨o32, ho32⟩ := Option.isSome_iff_exists.1 (png_bytes_isSome 32 32 (draw_icon 32)
    compress (by norm_num) (by norm_num) (draw_icon_mem 32)
    (le_of_eq (draw_icon_length 32).symm) (hc _))
  obtain ⟨o48, ho48⟩ := Option.isSome_iff_exists.1 (png_bytes_isSome 48 48 (draw_icon 48)
    compress (by norm_num) (by norm_num) (draw_icon_mem 48)
    (le_of_eq (draw_icon_length 48).symm) (hc _))
  obtain ⟨o128, ho128⟩ := Option.isSome_iff_exists.1 (png_bytes_isSome 128 128 (draw_icon 128)
    compress (by norm_num) (by norm_num) (draw_icon_mem 128)
    (le_of_eq (draw_icon_length 128).symm) (hc _))
  have n1 : iconFile dir 16 ≠ iconFile dir 32 := iconFile_ne dir 16 32 (by decide)
  have n2 : iconFile dir 16 ≠ iconFile dir 48 := iconFile_ne dir 16 48 (by decide)
  have n3 : iconFile dir 16 ≠ iconFile dir 128 := iconFile_ne dir 16 128 (by decide)
  have n4 : iconFile dir 32 ≠ iconFile dir 48 := iconFile_ne dir 32 48 (by decide)
  have n5 : iconFile dir 32 ≠ iconFile dir 128 := iconFile_ne dir 32 128 (by decide)
  have n6 : iconFile dir 48 ≠ iconFile dir 128 := iconFile_ne dir 48 128 (by decide)
  constructor
  · intro hok
    have h16 := hok 16 (by decide)
    have h32 := hok 32 (by decide)
    have h48 := hok 48 (by decide)
    have h128 := hok 128 (by decide)
    constructor
    · simp only [main, sizes]
      simp [mainLoop, ho16, h16, ho32, h32, ho48, h48, ho128, h128]
    · intro s hs
      fin_cases hs <;>
      · simp only [main, sizes]
        simp [mainLoop, ho16, h16, ho32, h32, ho48, h48, ho128, h128, writeFile,
          n1, n2, n3, n4, n5, n6]
  · intro pre s post hdec hpre hfail
    simp only [sizes] at hdec
    rcases pre with _ | ⟨a, pre⟩
    · simp only [List.nil_append] at hdec
      injection hdec with h1 h2
      subst h1
      subst h2
      refine ⟨?_, ?_⟩
      · simp only [main, sizes]
        simp [mainLoop, ho16, hfail]
      · intro t ht
        fin_cases ht <;>
        · simp only [main, sizes]
          simp [mainLoop, ho16, hfail]
    · rcases pre with _ | ⟨b, pre⟩
      · simp only [List.cons_append, List.nil_append] at hdec
        injection hdec with h1 hdec
        injection hdec with h2 h3
        subst h1
        subst h2
        subst h3
        have h16 := hpre 16 (by decide)
        refine ⟨?_, ?_⟩
        · simp only [main, sizes]
          simp [mainLoop, ho16, h16, ho32, hfail]
        · intro t ht
          fin_cases ht <;>
          · simp only [main, sizes]
            simp [mainLoop, ho16, h16, ho32, hfail, writeFile,
              Ne.symm n1, Ne.symm n2, Ne.symm n3]
      · rcases pre with _ | ⟨c, pre⟩
        · simp only [List.cons_append, List.nil_append] at hdec
          injection hdec with h1 hdec
          injection hdec with h2 hdec
          injection hdec with h3 h4
          subst h1
          subst h2
          subst h3
          subst h4
          have h16 := hpre 16 (by decide)
          have h32 := hpre 32 (by decide)
          refine ⟨?_, ?_⟩
          · simp only [main, sizes]
            simp [mainLoop, ho16, h16, ho32, h32, ho48, hfail]
          · intro t ht
            fin_cases ht <;>
            · simp only [main, sizes]
              simp [mainLoop, ho16, h16, ho32, h32, ho48, hfail, writeFile,
                Ne.symm n1, Ne.symm n2, Ne.symm n3, Ne.symm n4, Ne.symm n5]
        · rcases pre with _ | ⟨d, pre⟩
          · simp only [List.cons_append, List.nil_append] at hdec
            injection hdec with h1 hdec
            injection hdec with h2 hdec
            injection hdec with h3 hdec
            injection hdec with h4 h5
            subst h1
            subst h2
            subst h3
            subst h4
            subst h5
            have h16 := hpre 16 (by decide)
            have h32 := hpre 32 (by decide)
            have h48 := hpre 48 (by decide)
            refine ⟨?_, ?_⟩
            · simp only [main, sizes]
              simp [mainLoop, ho16, h16, ho32, h32, ho48, h48, ho128, hfail]
            · intro t ht
              fin_cases ht
              simp only [main, sizes]
              simp [mainLoop, ho16, h16, ho32, h32, ho48, h48, ho128, hfail, writeFile,
                Ne.symm n1, Ne.symm n2, Ne.symm n3, Ne.symm n4, Ne.symm n5, Ne.symm n6]
          · simp only [List.cons_append] at hdec
            injection hdec with h1 hdec
            injection hdec with h2 hdec
            injection hdec with h3 hdec
            injection hdec with h4 h5
            exact absurd h5.symm (by simp)

/-- Witness for C9: all writes succeed with the trivial compressor. -/
theorem C9_witness :
    (main (fun _ => []) (fun _ => false) "" (fun _ => none)).2 = none ∧
      ∀ s ∈ sizes, (main (fun _ => []) (fun _ => false) "" (fun _ => none)).1
        (iconFile "" s) = png_bytes s s (draw_icon s) (fun _ => []) :=
  (C9_driver (fun _ => []) (fun _ => false) "" (fun _ => none)
    (fun l => by norm_num)).1 (fun s hs => rfl)
